import Mathlib

/-!
Verification of `time_units`: parsing, formatting and converting
day/hour/minute/second durations.

A shallow embedding of `time_units.go` together with the properties of its
parser, formatter, numeric conversion and JSON bridge.

Go strings are modelled as `List Char` (the sequence of code points the `regexp`
package sees when it decodes the text), Go `int` as `Int` restricted to the
64-bit signed range where overflow matters.
-/

namespace TimeUnits

/-! The part of the package `regexp` the program uses -/

/-- Regular expressions over the syntax that occurs in `time_units.go`:
`^`, `$`, `\d`, a literal character, concatenation, greedy `x+`, greedy `x?`
and numbered capture groups. -/
inductive Regex where
  | beginText : Regex
  | endText : Regex
  | digit : Regex
  | lit : Char → Regex
  | cat : Regex → Regex → Regex
  | plus : Regex → Regex
  | quest : Regex → Regex
  | cap : Nat → Regex → Regex
  deriving DecidableEq, Repr

/-- ASCII decimal digit, the class `\d` of the package `regexp`. -/
def isDigit (c : Char) : Bool := 48 ≤ c.toNat && c.toNat ≤ 57

/-- A matching thread: `pos` characters lie before the cursor, `rest` is the
text from the cursor on, `caps` the capture groups closed so far (most recent
first). -/
structure Thread where
  pos : Nat
  rest : List Char
  caps : List (Nat × List Char)
  deriving DecidableEq, Repr

/-- Greedy iteration of a one-step matcher `f`: every further round must consume
text; the results that went through more rounds come first. `fuel` bounds the
number of rounds and is always given as the length of the remaining text. -/
def starLoop (f : Thread → List Thread) : Nat → Thread → List Thread
  | 0, t => [t]
  | n + 1, t =>
    (((f t).filter (fun t1 => t1.rest.length < t.rest.length)).flatMap (starLoop f n)) ++ [t]

/-- All ways of matching `re` at the cursor of a thread, in the priority order
of the leftmost-first (backtracking) semantics. -/
def step : Regex → Thread → List Thread
  | .beginText => fun t => if t.pos = 0 then [t] else []
  | .endText => fun t => if t.rest = [] then [t] else []
  | .digit => fun t =>
    match t with
    | ⟨pos, c :: r, caps⟩ => if isDigit c then [⟨pos + 1, r, caps⟩] else []
    | ⟨_, [], _⟩ => []
  | .lit a => fun t =>
    match t with
    | ⟨pos, c :: r, caps⟩ => if c = a then [⟨pos + 1, r, caps⟩] else []
    | ⟨_, [], _⟩ => []
  | .cat a b => fun t => (step a t).flatMap (step b)
  | .plus a => fun t => (step a t).flatMap (starLoop (step a) t.rest.length)
  | .quest a => fun t => step a t ++ [t]
  | .cap i a => fun t =>
    (step a t).map (fun t1 => ⟨t1.pos, t1.rest, (i, t.rest.take (t1.pos - t.pos)) :: t1.caps⟩)

/-- Leftmost search: the first start position at which `re` matches, with the
preferred thread there. Returns the start offset and the final thread. -/
def findAt (re : Regex) : Nat → List Char → Option (Nat × Thread)
  | pos, [] => (step re ⟨pos, [], []⟩).head?.map (fun t => (pos, t))
  | pos, c :: r =>
    match step re ⟨pos, c :: r, []⟩ with
    | t :: _ => some (pos, t)
    | [] => findAt re (pos + 1) r

/-- Number of the highest capture group of a pattern. -/
def numCap : Regex → Nat
  | .cat a b => max (numCap a) (numCap b)
  | .plus a => numCap a
  | .quest a => numCap a
  | .cap i a => max i (numCap a)
  | _ => 0

/-- The method `(*Regexp).MatchString`: does the text contain any match of the pattern. -/
def MatchString (re : Regex) (s : List Char) : Bool := (findAt re 0 s).isSome

/-- The method `(*Regexp).FindStringSubmatch`: `[]` (the nil slice) when there is no match,
otherwise the text of the leftmost match followed by the text of each capture
group (empty for a group that did not take part). -/
def FindStringSubmatch (re : Regex) (s : List Char) : List (List Char) :=
  match findAt re 0 s with
  | none => []
  | some (start, t) =>
    ((s.drop start).take (t.pos - start)) ::
      (List.range (numCap re)).map (fun i => ((t.caps.lookup (i + 1)).getD []))

/-- The unit pattern `\d+u` wrapped in an optional capture group: `(\d+u)?`. -/
def optUnit (i : Nat) (u : Char) : Regex :=
  .quest (.cap i (.cat (.plus .digit) (.lit u)))

/-- The package variable `durationPattern`: `^(\d+d)?(\d+h)?(\d+m)?(\d+s)?$`. -/
def durationPattern : Regex :=
  .cat .beginText
    (.cat (optUnit 1 'd') (.cat (optUnit 2 'h') (.cat (optUnit 3 'm') (.cat (optUnit 4 's') .endText))))

/-- The extraction pattern `(\d+)u` for a unit letter `u`. -/
def unitPattern (u : Char) : Regex := .cat (.cap 1 (.plus .digit)) (.lit u)

/-! The parts of `errors`, `strconv` and `fmt` the program uses -/

/-- The two failure causes of `strconv`: `ErrSyntax` and `ErrRange`. -/
inductive NumErrKind where
  | errSyntax : NumErrKind
  | errRange : NumErrKind
  deriving DecidableEq, Repr

/-- The Go `error` values that can flow through the program: the value made by
`errors.New`, the `*strconv.NumError` of `strconv.Atoi`, and the errors of
`encoding/json` (`*json.SyntaxError` for text that is not JSON and
`*json.UnmarshalTypeError` for a JSON value that is not a string). -/
inductive GoError where
  | errorString : String → GoError
  | numError : String → List Char → NumErrKind → GoError
  | jsonError : GoError
  deriving DecidableEq, Repr

/-- Largest value of the type `int` on a 64-bit host. -/
def maxInt : Int := 9223372036854775807

/-- Value of a run of decimal digits, most significant digit first. -/
def decimalValue (ds : List Char) : Nat :=
  ds.foldl (fun n c => n * 10 + (c.toNat - 48)) 0

/-- The function `strconv.Atoi` on a 64-bit host: an optional sign and one or more ASCII
digits. Anything else is `ErrSyntax` with value 0; a value outside the `int`
range is `ErrRange` with the nearest representable value. -/
def Atoi (s : List Char) : Int × Option GoError :=
  let neg : Bool := s.head? = some '-'
  let body := if s.head? = some '-' ∨ s.head? = some '+' then s.tail else s
  if body = [] ∨ body.all isDigit = false then
    (0, some (.numError "Atoi" s .errSyntax))
  else
    let un : Int := (decimalValue body : Nat)
    if neg = false ∧ maxInt < un then (maxInt, some (.numError "Atoi" s .errRange))
    else if neg = true ∧ maxInt + 1 < un then (-(maxInt + 1), some (.numError "Atoi" s .errRange))
    else (if neg then -un else un, none)

/-- The character of a decimal digit. -/
def digitChar (n : Nat) : Char :=
  match n with
  | 0 => '0' | 1 => '1' | 2 => '2' | 3 => '3' | 4 => '4'
  | 5 => '5' | 6 => '6' | 7 => '7' | 8 => '8' | _ => '9'

/-- The digit loop of `strconv`'s `formatBits` for base 10: digits are produced
from the least significant one and put in front of `acc`. -/
def formatBits : Nat → Nat → List Char → List Char
  | 0, _, acc => acc
  | fuel + 1, n, acc =>
    if n < 10 then digitChar n :: acc
    else formatBits fuel (n / 10) (digitChar (n % 10) :: acc)

/-- Decimal text of a natural number. -/
def formatNat (n : Nat) : List Char := formatBits (n + 1) n []

/-- The verb `%d` of `fmt.Sprintf` on an `int`. -/
def formatInt (i : Int) : List Char :=
  if i < 0 then '-' :: formatNat (-i).toNat else formatNat i.toNat

/-- The call `fmt.Sprintf("%du", v)` for a unit letter `u`. -/
def Sprintf (v : Int) (u : Char) : List Char := formatInt v ++ [u]

/-! The parts of `encoding/json` the program uses -/

/-- The double quote character. -/
def dquote : Char := Char.ofNat 34

/-- The backslash character. -/
def bslash : Char := Char.ofNat 92

/-- Lower-case hexadecimal digit. -/
def hexChar (n : Nat) : Char :=
  if n < 10 then digitChar n else Char.ofNat (87 + n)

/-- How `json.Marshal` writes one character of a string (HTML escaping on). -/
def jsonEscape (c : Char) : List Char :=
  if c = dquote ∨ c = bslash then [bslash, c]
  else if c.toNat = 8 then [bslash, 'b']
  else if c.toNat = 12 then [bslash, 'f']
  else if c.toNat = 10 then [bslash, 'n']
  else if c.toNat = 13 then [bslash, 'r']
  else if c.toNat = 9 then [bslash, 't']
  else if c.toNat < 32 ∨ c = '<' ∨ c = '>' ∨ c = '&' then
    [bslash, 'u', '0', '0', hexChar (c.toNat / 16), hexChar (c.toNat % 16)]
  else if c.toNat = 8232 ∨ c.toNat = 8233 then
    [bslash, 'u', '2', '0', '2', hexChar (c.toNat % 16)]
  else [c]

/-- The function `json.Marshal` applied to a string: the quoted, escaped text;
the error is always nil. -/
def jsonMarshalString (s : List Char) : List Char × Option GoError :=
  (dquote :: (s.flatMap jsonEscape ++ [dquote]), none)

/-- JSON insignificant whitespace. -/
def isJsonSpace (c : Char) : Bool :=
  c = ' ' || c.toNat = 9 || c.toNat = 10 || c.toNat = 13

/-- Value of a hexadecimal digit. -/
def hexVal (c : Char) : Option Nat :=
  if isDigit c then some (c.toNat - 48)
  else if 97 ≤ c.toNat ∧ c.toNat ≤ 102 then some (c.toNat - 87)
  else if 65 ≤ c.toNat ∧ c.toNat ≤ 70 then some (c.toNat - 55)
  else none

/-- Value of four hexadecimal digits (`getu4`). -/
def hex4 (a b c d : Char) : Option Nat :=
  match hexVal a, hexVal b, hexVal c, hexVal d with
  | some x, some y, some z, some w => some (((x * 16 + y) * 16 + z) * 16 + w)
  | _, _, _, _ => none

/-- The character a one-letter JSON escape stands for. -/
def simpleEscape (e : Char) : Option Char :=
  if e = dquote then some dquote
  else if e = bslash then some bslash
  else if e = '/' then some '/'
  else if e = 'b' then some (Char.ofNat 8)
  else if e = 'f' then some (Char.ofNat 12)
  else if e = 'n' then some (Char.ofNat 10)
  else if e = 'r' then some (Char.ofNat 13)
  else if e = 't' then some (Char.ofNat 9)
  else none

/-- The Unicode replacement character U+FFFD. -/
def replacementChar : Char := Char.ofNat 65533

/-- The low half of a surrogate pair written as `\uXXXX` at the head of the text. -/
def lowSurrogate (r : List Char) : Option Nat :=
  match r with
  | b :: u :: k1 :: k2 :: k3 :: k4 :: _ =>
    if b = bslash ∧ u = 'u' then
      match hex4 k1 k2 k3 k4 with
      | some w => if 56320 ≤ w ∧ w < 57344 then some w else none
      | none => none
    else none
  | _ => none

/-- Decoding of one escape sequence, from just after the backslash: the character
it stands for and the number of characters of the text it takes up. A `\u` escape
of a high surrogate followed by the escape of a low surrogate stands for one
character; any other surrogate stands for U+FFFD. -/
def decodeEscape (r : List Char) : Option (Char × Nat) :=
  match r with
  | [] => none
  | e :: r1 =>
    if e = 'u' then
      match r1 with
      | h1 :: h2 :: h3 :: h4 :: r2 =>
        match hex4 h1 h2 h3 h4 with
        | none => none
        | some v =>
          if 55296 ≤ v ∧ v < 57344 then
            match (if v < 56320 then lowSurrogate r2 else none) with
            | some w => some (Char.ofNat ((v - 55296) * 1024 + (w - 56320) + 65536), 11)
            | none => some (replacementChar, 5)
          else some (Char.ofNat v, 5)
      | _ => none
    else (simpleEscape e).map (fun x => (x, 1))

/-- Decoding of the inside of a JSON string literal, from just after the opening
quote: the decoded text and what follows the closing quote; `none` when the
literal is malformed. `skip` counts the characters of an escape sequence that
are still to be passed over. -/
def unquoteChars : Nat → List Char → Option (List Char × List Char)
  | _, [] => none
  | skip + 1, _ :: r => unquoteChars skip r
  | 0, c :: r =>
    if c = dquote then some ([], r)
    else if c = bslash then
      match decodeEscape r with
      | some (x, k) => (unquoteChars k r).map (fun p => (x :: p.1, p.2))
      | none => none
    else if c.toNat < 32 then none
    else (unquoteChars 0 r).map (fun p => (c :: p.1, p.2))

/-- The call `json.Unmarshal(data, &str)` for a `string` variable that holds the
empty string: a JSON string literal is decoded into it, the JSON value `null` leaves it empty, and
every other text (another kind of JSON value, or no JSON at all) is an error. -/
def jsonUnmarshalString (data : List Char) : Except GoError (List Char) :=
  match data.dropWhile isJsonSpace with
  | [] => .error .jsonError
  | c :: r =>
    if c = dquote then
      match unquoteChars 0 r with
      | some (s, after) => if after.all isJsonSpace then .ok s else .error .jsonError
      | none => .error .jsonError
    else if (c :: r).take 4 = ['n', 'u', 'l', 'l'] ∧ ((c :: r).drop 4).all isJsonSpace then .ok []
    else .error .jsonError

/-! The program -/

/-- The type `TimeUnitDuration`: a duration with days, hours, minutes and seconds. -/
structure TimeUnitDuration where
  days : Int
  hours : Int
  minutes : Int
  seconds : Int
  deriving DecidableEq, Repr

/-- The zero value `TimeUnitDuration{}`. -/
def TimeUnitDuration.zero : TimeUnitDuration := ⟨0, 0, 0, 0⟩

/-- The error made by `errors.New` in `ParseTimeUnitDuration`. -/
def errInvalidFormat : GoError :=
  .errorString "invalid duration format, expected 'NdNhNmNs'"

/-- One conversion block of `ParseTimeUnitDuration`:
`if len(match) > 0 { v, err := strconv.Atoi(match[1]); if err != nil { return dur, err }; dur.f = v }`,
where `set` is the assignment to the field. `Except.error` stands for the `return dur, err`. -/
def convertField (dur : TimeUnitDuration) (submatch : List (List Char))
    (set : TimeUnitDuration → Int → TimeUnitDuration) :
    Except (TimeUnitDuration × GoError) TimeUnitDuration :=
  if submatch.length > 0 then
    match Atoi (submatch.getD 1 []) with
    | (_, some err) => .error (dur, err)
    | (v, none) => .ok (set dur v)
  else .ok dur

/-- The body of `ParseTimeUnitDuration`; `Except.error` stands for a `return dur, err`. -/
def parseBody (input : List Char) : Except (TimeUnitDuration × GoError) TimeUnitDuration :=
  let dur : TimeUnitDuration := TimeUnitDuration.zero
  if MatchString durationPattern input = false then
    .error (dur, errInvalidFormat)
  else
    let daysMatch := FindStringSubmatch (unitPattern 'd') input
    let hoursMatch := FindStringSubmatch (unitPattern 'h') input
    let minutesMatch := FindStringSubmatch (unitPattern 'm') input
    let secondsMatch := FindStringSubmatch (unitPattern 's') input
    (convertField dur daysMatch (fun t days => { t with days := days })).bind fun dur =>
    (convertField dur hoursMatch (fun t hours => { t with hours := hours })).bind fun dur =>
    (convertField dur minutesMatch (fun t minutes => { t with minutes := minutes })).bind fun dur =>
    (convertField dur secondsMatch (fun t seconds => { t with seconds := seconds })).bind fun dur =>
    .ok dur

/-- The function `ParseTimeUnitDuration`: the returned value and the returned
error (`none` is nil). -/
def ParseTimeUnitDuration (input : List Char) : TimeUnitDuration × Option GoError :=
  match parseBody input with
  | .ok dur => (dur, none)
  | .error (dur, err) => (dur, some err)

/-- The method `GetUnitDays`. -/
def TimeUnitDuration.GetUnitDays (t : TimeUnitDuration) : Int := t.days

/-- The method `GetUnitHours`. -/
def TimeUnitDuration.GetUnitHours (t : TimeUnitDuration) : Int := t.hours

/-- The method `GetUnitMinutes`. -/
def TimeUnitDuration.GetUnitMinutes (t : TimeUnitDuration) : Int := t.minutes

/-- The method `GetUnitSeconds`. -/
def TimeUnitDuration.GetUnitSeconds (t : TimeUnitDuration) : Int := t.seconds

/-- Two's-complement wrap-around of a result of 64-bit signed arithmetic. -/
def wrapInt64 (x : Int) : Int := (x + 9223372036854775808) % 18446744073709551616 - 9223372036854775808

/-- The constant `time.Second`, in nanoseconds. -/
def Second : Int := 1000000000

/-- The method `Duration`: the `time.Duration` (a count of nanoseconds, an `int64`)
of the value. -/
def TimeUnitDuration.Duration (t : TimeUnitDuration) : Int :=
  let totalSeconds :=
    wrapInt64 (wrapInt64 (wrapInt64 (t.seconds + wrapInt64 (t.minutes * 60)) +
      wrapInt64 (t.hours * 3600)) + wrapInt64 (t.days * 86400))
  wrapInt64 (totalSeconds * Second)

/-- The method `String`: the text form of the value. -/
def TimeUnitDuration.String (t : TimeUnitDuration) : List Char :=
  let strBuilder : List Char := []
  let strBuilder := if t.days > 0 then strBuilder ++ Sprintf t.days 'd' else strBuilder
  let strBuilder := if t.hours > 0 then strBuilder ++ Sprintf t.hours 'h' else strBuilder
  let strBuilder := if t.minutes > 0 then strBuilder ++ Sprintf t.minutes 'm' else strBuilder
  let strBuilder :=
    if t.seconds > 0 ∨ (t.days = 0 ∧ t.hours = 0 ∧ t.minutes = 0) then
      strBuilder ++ Sprintf t.seconds 's'
    else strBuilder
  let strBuilder := if strBuilder.length = 0 then strBuilder ++ ['0', 's'] else strBuilder
  strBuilder

/-- The method `MarshalJSON`: the JSON encoding of the text form. -/
def TimeUnitDuration.MarshalJSON (t : TimeUnitDuration) : List Char × Option GoError :=
  jsonMarshalString t.String

/-- The method `UnmarshalJSON`: the receiver after the call and the returned error. -/
def TimeUnitDuration.UnmarshalJSON (t : TimeUnitDuration) (data : List Char) :
    TimeUnitDuration × Option GoError :=
  match jsonUnmarshalString data with
  | .error err => (t, some err)
  | .ok str =>
    match ParseTimeUnitDuration str with
    | (_, some err) => (t, some err)
    | (parsed, none) => (parsed, none)

/-! The grammar of the text form -/

/-- A non-empty run of ASCII digits. -/
def IsDigits (ds : List Char) : Prop := ds ≠ [] ∧ ∀ c ∈ ds, isDigit c = true

/-- The text of one optional component: the digits followed by the unit letter. -/
def component (u : Char) : Option (List Char) → List Char
  | none => []
  | some ds => ds ++ [u]

/-- A component is either absent or carries a non-empty run of digits. -/
def ValidPart : Option (List Char) → Prop
  | none => True
  | some ds => IsDigits ds

/-- The text `days? hours? minutes? seconds?` made of the given components. -/
def durationText (d h m s : Option (List Char)) : List Char :=
  component 'd' d ++ (component 'h' h ++ (component 'm' m ++ component 's' s))

/-- The grammar `duration := days? hours? minutes? seconds?`. -/
def InGrammar (text : List Char) : Prop :=
  ∃ d h m s, ValidPart d ∧ ValidPart h ∧ ValidPart m ∧ ValidPart s ∧ text = durationText d h m s

/-- The number a component stands for: the decimal value of its digits, 0 when absent. -/
def partValue : Option (List Char) → Int
  | none => 0
  | some ds => (decimalValue ds : Nat)

/-- Position of a unit letter in the order d, h, m, s. -/
def unitRank (c : Char) : Nat :=
  if c = 'd' then 0 else if c = 'h' then 1 else if c = 'm' then 2 else 3

/-- The four unit letters. -/
def isUnitLetter (c : Char) : Bool := c = 'd' || c = 'h' || c = 'm' || c = 's'

/-! Auxiliary functions describing what the patterns do -/

/-- The cursor positions after one or more digits, longest run first. -/
def digitCuts : Nat → List Char → List (Nat × List Char)
  | _, [] => []
  | pos, c :: r => if isDigit c then digitCuts (pos + 1) r ++ [(pos + 1, r)] else []

/-- Splits `ds ++ u :: r` with `ds` a non-empty digit run into `(ds, r)`. -/
def digitsThen (u : Char) : List Char → Option (List Char × List Char)
  | [] => none
  | [_] => none
  | c :: c1 :: r =>
    if isDigit c then
      if c1 = u then some ([c], r)
      else (digitsThen u (c1 :: r)).map (fun p => (c :: p.1, p.2))
    else none

/-- A stretch of text that the leftmost search for `(\d+)u` walks through without
finding a match that starts inside it. -/
def Skips (u : Char) (w : List Char) : Prop :=
  ∀ pos rest, findAt (unitPattern u) pos (w ++ rest) = findAt (unitPattern u) (pos + w.length) rest

/-- The result of `FindStringSubmatch` for a component: nil when it is absent,
the component and its digits when it is present. -/
def submatchOf (u : Char) : Option (List Char) → List (List Char)
  | none => []
  | some ds => [ds ++ [u], ds]

/-- The conversion of one component: 0 when absent, `Atoi` of the digits otherwise. -/
def atoiPart : Option (List Char) → Int × Option GoError
  | none => (0, none)
  | some ds => Atoi ds

/-- The value and error `ParseTimeUnitDuration` ends with when the conversion of
the components goes as `Atoi` says, one component after the other. -/
def convertParts (d h m s : Option (List Char)) : TimeUnitDuration × Option GoError :=
  match atoiPart d with
  | (_, some e) => (⟨0, 0, 0, 0⟩, some e)
  | (vd, none) =>
    match atoiPart h with
    | (_, some e) => (⟨vd, 0, 0, 0⟩, some e)
    | (vh, none) =>
      match atoiPart m with
      | (_, some e) => (⟨vd, vh, 0, 0⟩, some e)
      | (vm, none) =>
        match atoiPart s with
        | (_, some e) => (⟨vd, vh, vm, 0⟩, some e)
        | (vs, none) => (⟨vd, vh, vm, vs⟩, none)

instance (ds : List Char) : Decidable (IsDigits ds) := by
  unfold IsDigits; infer_instance

instance (o : Option (List Char)) : Decidable (ValidPart o) := by
  cases o with
  | none => exact isTrue trivial
  | some ds => unfold ValidPart; infer_instance

/-- A run of digits is the decimal text of `n`: it is not empty, its value is `n`
and it has no leading zero (the text of 0 is the single digit 0). -/
def IsDecimalOf (ds : List Char) (n : Nat) : Prop :=
  IsDigits ds ∧ decimalValue ds = n ∧ (ds.head? = some '0' → ds = ['0'])

/-- All four fields are non-negative. -/
def TimeUnitDuration.NonNeg (t : TimeUnitDuration) : Prop :=
  0 ≤ t.days ∧ 0 ≤ t.hours ∧ 0 ≤ t.minutes ∧ 0 ≤ t.seconds

/-- All four fields are at most the largest `int` (true of every Go value of the type). -/
def TimeUnitDuration.InRange (t : TimeUnitDuration) : Prop :=
  t.days ≤ maxInt ∧ t.hours ≤ maxInt ∧ t.minutes ≤ maxInt ∧ t.seconds ≤ maxInt

instance (t : TimeUnitDuration) : Decidable t.NonNeg := by
  unfold TimeUnitDuration.NonNeg; infer_instance

instance (t : TimeUnitDuration) : Decidable t.InRange := by
  unfold TimeUnitDuration.InRange; infer_instance

/-- The component `String` writes for a field: present when the field is positive
or when `force` holds. -/
def numPart (v : Int) (force : Bool) : Option (List Char) :=
  if 0 < v ∨ force = true then some (formatNat v.toNat) else none

/-- The components of the text `String` produces. -/
def stringParts (t : TimeUnitDuration) :
    Option (List Char) × Option (List Char) × Option (List Char) × Option (List Char) :=
  (numPart t.days false, numPart t.hours false, numPart t.minutes false,
    numPart t.seconds (decide (t.days = 0 ∧ t.hours = 0 ∧ t.minutes = 0)))

/-- A sample value: 2 days, 3 hours, 45 minutes, 30 seconds. -/
def sample : TimeUnitDuration := ⟨2, 3, 45, 30⟩

/-- A character that needs no escape in JSON and ends no string literal there:
a digit or a unit letter. -/
def isPlain (c : Char) : Bool := isDigit c || isUnitLetter c

/-- The total number of seconds of a value, as a mathematical integer:
seconds + minutes*60 + hours*3600 + days*86400. -/
def TimeUnitDuration.totalSeconds (t : TimeUnitDuration) : Int :=
  t.seconds + t.minutes * 60 + t.hours * 3600 + t.days * 86400

/-- The result of the conversion as the specification words it: the total in
nanoseconds when the total and its conversion to nanoseconds fit the 64-bit
signed range, a failure (`none`) when one of them overflows. -/
def durationOrFail (t : TimeUnitDuration) : Option Int :=
  if -(maxInt + 1) ≤ t.totalSeconds ∧ t.totalSeconds ≤ maxInt ∧
      -(maxInt + 1) ≤ t.totalSeconds * Second ∧ t.totalSeconds * Second ≤ maxInt then
    some (t.totalSeconds * Second)
  else none

/-- The digits of a component whose value exceeds the largest `int`; `none` for
an absent component and for one whose value fits. -/
def overflowDigits : Option (List Char) → Option (List Char)
  | none => none
  | some ds => if maxInt < ((decimalValue ds : Nat) : Int) then some ds else none

/-- The digits of the first component, in the order days, hours, minutes,
seconds, whose value exceeds the largest `int`. -/
def firstOverflow (d h m s : Option (List Char)) : Option (List Char) :=
  match overflowDigits d with
  | some ds => some ds
  | none =>
    match overflowDigits h with
    | some ds => some ds
    | none =>
      match overflowDigits m with
      | some ds => some ds
      | none => overflowDigits s

/-- The builder of `String` as it stands just before the final test
`strBuilder.Len() == 0`. -/
def TimeUnitDuration.builder (t : TimeUnitDuration) : List Char :=
  let strBuilder : List Char := []
  let strBuilder := if t.days > 0 then strBuilder ++ Sprintf t.days 'd' else strBuilder
  let strBuilder := if t.hours > 0 then strBuilder ++ Sprintf t.hours 'h' else strBuilder
  let strBuilder := if t.minutes > 0 then strBuilder ++ Sprintf t.minutes 'm' else strBuilder
  let strBuilder :=
    if t.seconds > 0 ∨ (t.days = 0 ∧ t.hours = 0 ∧ t.minutes = 0) then
      strBuilder ++ Sprintf t.seconds 's'
    else strBuilder
  strBuilder

/-- The final fallback of `String` is taken: the builder is empty when the
test `strBuilder.Len() == 0` is made. -/
def TimeUnitDuration.fallbackTaken (t : TimeUnitDuration) : Prop := t.builder.length = 0

instance (t : TimeUnitDuration) : Decidable t.fallbackTaken := by
  unfold TimeUnitDuration.fallbackTaken; infer_instance

/-- A component that is absent, or a positive number written without leading zeros. -/
def PositivePart : Option (List Char) → Prop
  | none => True
  | some ds => 0 < decimalValue ds ∧ ds.head? ≠ some '0'

/-- A canonical text: the text 0s, or a non-empty text in which every component
present is a positive number written without leading zeros. -/
def Canonical (d h m s : Option (List Char)) : Prop :=
  durationText d h m s = ['0', 's'] ∨
    (durationText d h m s ≠ [] ∧ PositivePart d ∧ PositivePart h ∧ PositivePart m ∧
      PositivePart s)

instance (o : Option (List Char)) : Decidable (PositivePart o) := by
  cases o with
  | none => exact isTrue trivial
  | some ds => unfold PositivePart; infer_instance

instance (d h m s : Option (List Char)) : Decidable (Canonical d h m s) := by
  unfold Canonical; infer_instance

/-- The text of capture group `i` in the leftmost match of a pattern: `none` when
there is no match or the group took no part in it (the case for which
`FindStringSubmatchIndex` reports -1). -/
def groupOf (re : Regex) (s : List Char) (i : Nat) : Option (List Char) :=
  match findAt re 0 s with
  | none => none
  | some (_, t) => t.caps.lookup i

/-- The extraction search for the unit letter `u` agrees with group `i` of the
anchored pattern on a text: it finds nothing when the group took no part in the
anchored match; when the group took part, with text `g`, then `g` is a digit run
followed by `u` and the search finds `g` and captures that whole digit run. -/
def SearchAgrees (text : List Char) (i : Nat) (u : Char) : Prop :=
  match groupOf durationPattern text i with
  | none => FindStringSubmatch (unitPattern u) text = []
  | some g => ∃ ds, IsDigits ds ∧ g = ds ++ [u] ∧ FindStringSubmatch (unitPattern u) text = [g, ds]

/-- A sequence of optional units followed by the end of the text:
`(\d+u1)?(\d+u2)?...$`. -/
def seqPattern : List (Nat × Char) → Regex
  | [] => .endText
  | p :: l => .cat (optUnit p.1 p.2) (seqPattern l)

/-- The text of a sequence of optional components. -/
def seqText : List (Nat × Char × Option (List Char)) → List Char
  | [] => []
  | p :: l => component p.2.1 p.2.2 ++ seqText l

/-- The capture groups after a sequence of optional components has been matched,
in front of the groups `caps` closed before. -/
def seqCaps : List (Nat × Char × Option (List Char)) → List (Nat × List Char) →
    List (Nat × List Char)
  | [], caps => caps
  | p :: l, caps =>
    seqCaps l (match p.2.2 with
      | none => caps
      | some ds => (p.1, ds ++ [p.2.1]) :: caps)

/-! Lemmas on the regular expression engine -/

theorem step_digit_cons (pos : Nat) (c : Char) (r : List Char) (caps : List (Nat × List Char)) :
    step .digit ⟨pos, c :: r, caps⟩ = if isDigit c then [⟨pos + 1, r, caps⟩] else [] := rfl

theorem step_digit_nil (pos : Nat) (caps : List (Nat × List Char)) :
    step .digit ⟨pos, [], caps⟩ = [] := rfl

theorem step_lit_cons (a : Char) (pos : Nat) (c : Char) (r : List Char)
    (caps : List (Nat × List Char)) :
    step (.lit a) ⟨pos, c :: r, caps⟩ = if c = a then [⟨pos + 1, r, caps⟩] else [] := rfl

theorem step_lit_nil (a : Char) (pos : Nat) (caps : List (Nat × List Char)) :
    step (.lit a) ⟨pos, [], caps⟩ = [] := rfl

theorem step_cat (a b : Regex) (t : Thread) :
    step (.cat a b) t = (step a t).flatMap (step b) := rfl

theorem step_plus (a : Regex) (t : Thread) :
    step (.plus a) t = (step a t).flatMap (starLoop (step a) t.rest.length) := rfl

theorem step_quest (a : Regex) (t : Thread) : step (.quest a) t = step a t ++ [t] := rfl

theorem step_cap (i : Nat) (a : Regex) (t : Thread) :
    step (.cap i a) t =
      (step a t).map (fun t1 => ⟨t1.pos, t1.rest, (i, t.rest.take (t1.pos - t.pos)) :: t1.caps⟩) :=
  rfl

theorem digitCuts_cons (pos : Nat) (c : Char) (r : List Char) :
    digitCuts pos (c :: r) = if isDigit c then digitCuts (pos + 1) r ++ [(pos + 1, r)] else [] :=
  rfl

theorem starLoop_digit (caps : List (Nat × List Char)) :
    ∀ (n pos : Nat) (rest : List Char), rest.length ≤ n →
      starLoop (step .digit) n ⟨pos, rest, caps⟩ =
        (digitCuts pos rest).map (fun p => ⟨p.1, p.2, caps⟩) ++ [⟨pos, rest, caps⟩] := by
  intro n
  induction n with
  | zero =>
    intro pos rest h
    have : rest = [] := List.length_eq_zero.mp (Nat.le_zero.mp h)
    subst this
    simp [starLoop, digitCuts]
  | succ n ih =>
    intro pos rest h
    cases rest with
    | nil => simp [starLoop, digitCuts, step_digit_nil]
    | cons c r =>
      by_cases hc : isDigit c = true
      · have hr : r.length ≤ n := by simpa using h
        simp [starLoop, digitCuts, step_digit_cons, hc, ih (pos + 1) r hr]
      · simp [starLoop, digitCuts, step_digit_cons, hc]

theorem step_plus_digit (pos : Nat) (rest : List Char) (caps : List (Nat × List Char)) :
    step (.plus .digit) ⟨pos, rest, caps⟩ =
      (digitCuts pos rest).map (fun p => ⟨p.1, p.2, caps⟩) := by
  cases rest with
  | nil => simp [step_plus, step_digit_nil, digitCuts]
  | cons c r =>
    by_cases hc : isDigit c = true
    · simp [step_plus, step_digit_cons, digitCuts, hc,
        starLoop_digit caps (r.length + 1) (pos + 1) r (by omega)]
    · simp [step_plus, step_digit_cons, digitCuts, hc]

theorem digitsThen_cons_cons (u c c1 : Char) (r : List Char) :
    digitsThen u (c :: c1 :: r) =
      if isDigit c then
        if c1 = u then some ([c], r)
        else (digitsThen u (c1 :: r)).map (fun p => (c :: p.1, p.2))
      else none := rfl

theorem digitsThen_nondigit (u c : Char) (r : List Char) (hc : isDigit c = false) :
    digitsThen u (c :: r) = none := by
  cases r with
  | nil => rfl
  | cons c1 r1 => simp [digitsThen_cons_cons, hc]

theorem digitCuts_flatMap_lit (u : Char) (hu : isDigit u = false)
    (g : Nat → List (Nat × List Char)) :
    ∀ (rest : List Char) (pos : Nat),
      (digitCuts pos rest).flatMap (fun p => step (.lit u) ⟨p.1, p.2, g p.1⟩) =
        match digitsThen u rest with
        | some (ds, r) => [⟨pos + ds.length + 1, r, g (pos + ds.length)⟩]
        | none => [] := by
  intro rest
  induction rest with
  | nil => intro pos; simp [digitCuts, digitsThen]
  | cons c r ih =>
    intro pos
    cases r with
    | nil =>
      by_cases hc : isDigit c = true
      · simp [digitCuts, digitsThen, hc, step_lit_nil]
      · simp [digitCuts, digitsThen, hc]
    | cons c1 r1 =>
      rw [digitCuts_cons, digitsThen_cons_cons]
      by_cases hc : isDigit c = true
      · have ih1 := ih (pos + 1)
        simp only [hc, if_true, List.flatMap_append, ih1]
        by_cases h1 : c1 = u
        · subst h1
          simp [digitsThen_nondigit, hu, step_lit_cons]
        · simp only [h1, if_false]
          cases hd : digitsThen u (c1 :: r1) with
          | none => simp [step_lit_cons, h1]
          | some p =>
            obtain ⟨ds, r2⟩ := p
            simp [step_lit_cons, h1, Nat.add_assoc, Nat.add_comm 1]
      · simp [hc]

theorem digitsThen_some (u : Char) :
    ∀ (rest ds r : List Char), digitsThen u rest = some (ds, r) →
      IsDigits ds ∧ rest = ds ++ u :: r := by
  intro rest
  induction rest with
  | nil => intro ds r h; simp [digitsThen] at h
  | cons c rest ih =>
    intro ds r h
    cases rest with
    | nil => simp [digitsThen] at h
    | cons c1 r1 =>
      rw [digitsThen_cons_cons] at h
      by_cases hc : isDigit c = true
      · by_cases h1 : c1 = u
        · simp only [hc, h1, if_true, Option.some.injEq, Prod.mk.injEq] at h
          obtain ⟨rfl, rfl⟩ := h
          subst h1
          exact ⟨⟨by simp, by simpa using hc⟩, by simp⟩
        · simp only [hc, h1, if_true, if_false, Option.map_eq_some', Prod.mk.injEq] at h
          obtain ⟨p, hp, rfl, rfl⟩ := h
          obtain ⟨hd, he⟩ := ih p.1 p.2 hp
          refine ⟨⟨by simp, ?_⟩, by simp [he]⟩
          intro x hx
          rcases List.mem_cons.mp hx with rfl | hx
          · exact hc
          · exact hd.2 x hx
      · simp [hc] at h

theorem digitsThen_append (u : Char) (hu : isDigit u = false) (r : List Char) :
    ∀ ds : List Char, IsDigits ds → digitsThen u (ds ++ u :: r) = some (ds, r) := by
  intro ds
  induction ds with
  | nil => intro h; exact absurd rfl h.1
  | cons c ds ih =>
    intro h
    have hc : isDigit c = true := h.2 c (List.mem_cons_self _ _)
    cases ds with
    | nil => simp [digitsThen_cons_cons, hc]
    | cons c1 ds1 =>
      have h1 : isDigit c1 = true := h.2 c1 (by simp)
      have hne : c1 ≠ u := by
        intro e
        rw [e, hu] at h1
        exact Bool.noConfusion h1
      have ih1 := ih ⟨by simp, fun x hx => h.2 x (List.mem_cons_of_mem _ hx)⟩
      simp only [List.cons_append] at ih1 ⊢
      rw [digitsThen_cons_cons]
      simp [hc, hne, ih1]

theorem digitsThen_other (u v : Char) (hu : isDigit u = false) (hv : isDigit v = false)
    (hne : v ≠ u) (r : List Char) :
    ∀ ds : List Char, (∀ c ∈ ds, isDigit c = true) → digitsThen u (ds ++ v :: r) = none := by
  intro ds
  induction ds with
  | nil => intro _; exact digitsThen_nondigit u v r hv
  | cons c ds ih =>
    intro h
    have hc : isDigit c = true := h c (List.mem_cons_self _ _)
    have ih1 := ih (fun x hx => h x (List.mem_cons_of_mem _ hx))
    cases ds with
    | nil => simp [digitsThen_cons_cons, hc, hne, digitsThen_nondigit u v r hv]
    | cons c1 ds1 =>
      have h1 : isDigit c1 = true := h c1 (by simp)
      have hne1 : c1 ≠ u := by
        intro e
        rw [e, hu] at h1
        exact Bool.noConfusion h1
      simp only [List.cons_append] at ih1 ⊢
      rw [digitsThen_cons_cons]
      simp [hc, hne1, ih1]

theorem take_unit (pos : Nat) (ds r : List Char) (u : Char) :
    List.take (pos + ds.length + 1 - pos) (ds ++ u :: r) = ds ++ [u] := by
  have h1 : pos + ds.length + 1 - pos = (ds ++ [u]).length := by simp; omega
  have h2 : ds ++ u :: r = (ds ++ [u]) ++ r := by simp
  rw [h1, h2, List.take_left']
  rfl

/-- What `\d+u` does at a cursor. -/
theorem step_unit (u : Char) (hu : isDigit u = false) (pos : Nat) (rest : List Char)
    (caps : List (Nat × List Char)) :
    step (.cat (.plus .digit) (.lit u)) ⟨pos, rest, caps⟩ =
      match digitsThen u rest with
      | some (ds, r) => [⟨pos + ds.length + 1, r, caps⟩]
      | none => [] := by
  rw [step_cat, step_plus_digit, List.flatMap_map]
  exact digitCuts_flatMap_lit u hu (fun _ => caps) rest pos

/-- What `(\d+)u` does at a cursor. -/
theorem step_unitPattern (u : Char) (hu : isDigit u = false) (pos : Nat) (rest : List Char)
    (caps : List (Nat × List Char)) :
    step (unitPattern u) ⟨pos, rest, caps⟩ =
      match digitsThen u rest with
      | some (ds, r) => [⟨pos + ds.length + 1, r, (1, ds) :: caps⟩]
      | none => [] := by
  rw [unitPattern, step_cat, step_cap, step_plus_digit, List.map_map, List.flatMap_map]
  have h := digitCuts_flatMap_lit u hu (fun a => (1, rest.take (a - pos)) :: caps) rest pos
  simp only [Function.comp] at h ⊢
  rw [h]
  cases hd : digitsThen u rest with
  | none => rfl
  | some p =>
    obtain ⟨ds, r⟩ := p
    obtain ⟨-, he⟩ := digitsThen_some u rest ds r hd
    simp [he]

/-- What `(\d+u)?` does at a cursor. -/
theorem step_optUnit (i : Nat) (u : Char) (hu : isDigit u = false) (pos : Nat)
    (rest : List Char) (caps : List (Nat × List Char)) :
    step (optUnit i u) ⟨pos, rest, caps⟩ =
      (match digitsThen u rest with
        | some (ds, r) => [⟨pos + ds.length + 1, r, (i, ds ++ [u]) :: caps⟩]
        | none => []) ++ [⟨pos, rest, caps⟩] := by
  rw [optUnit, step_quest, step_cap, step_unit u hu]
  cases hd : digitsThen u rest with
  | none => rfl
  | some p =>
    obtain ⟨ds, r⟩ := p
    obtain ⟨-, he⟩ := digitsThen_some u rest ds r hd
    simp [he, take_unit]

theorem step_beginText (t : Thread) : step .beginText t = if t.pos = 0 then [t] else [] := rfl

theorem step_endText (t : Thread) : step .endText t = if t.rest = [] then [t] else [] := rfl

theorem isDigit_d : isDigit 'd' = false := by decide
theorem isDigit_h : isDigit 'h' = false := by decide
theorem isDigit_m : isDigit 'm' = false := by decide
theorem isDigit_s : isDigit 's' = false := by decide

/-- Every result of `(\d+u)?` lies behind an optional component of the text. -/
theorem mem_step_optUnit (i : Nat) (u : Char) (hu : isDigit u = false) (t t1 : Thread)
    (h : t1 ∈ step (optUnit i u) t) :
    ∃ o, ValidPart o ∧ t.rest = component u o ++ t1.rest := by
  obtain ⟨pos, rest, caps⟩ := t
  rw [step_optUnit i u hu] at h
  rcases List.mem_append.mp h with h | h
  · cases hd : digitsThen u rest with
    | none => simp [hd] at h
    | some p =>
      obtain ⟨ds, r⟩ := p
      obtain ⟨hds, he⟩ := digitsThen_some u rest ds r hd
      simp only [hd, List.mem_singleton] at h
      subst h
      exact ⟨some ds, hds, by simp [component, he]⟩
  · simp only [List.mem_singleton] at h
    subst h
    exact ⟨none, trivial, by simp [component]⟩

/-- An optional component at the cursor can be consumed by `(\d+u)?`. -/
theorem step_optUnit_component (i : Nat) (u : Char) (hu : isDigit u = false) (o : Option (List Char))
    (ho : ValidPart o) (t : Thread) (rem : List Char) (h : t.rest = component u o ++ rem) :
    ∃ t1 ∈ step (optUnit i u) t, t1.rest = rem := by
  obtain ⟨pos, rest, caps⟩ := t
  simp only at h
  subst h
  rw [step_optUnit i u hu]
  cases o with
  | none => exact ⟨⟨pos, rem, caps⟩, by simp [component], rfl⟩
  | some ds =>
    have hd : digitsThen u (component u (some ds) ++ rem) = some (ds, rem) := by
      simpa [component] using digitsThen_append u hu rem ds ho
    exact ⟨⟨pos + ds.length + 1, rem, (i, ds ++ [u]) :: caps⟩, by simp [hd], rfl⟩

/-- The anchored pattern has a match at the start of the text exactly for the
texts of the grammar. -/
theorem step_durationPattern_iff (text : List Char) :
    (∃ t, t ∈ step durationPattern ⟨0, text, []⟩) ↔ InGrammar text := by
  constructor
  · rintro ⟨t, ht⟩
    simp only [durationPattern, step_cat, List.mem_flatMap, step_beginText, if_true,
      List.mem_singleton, exists_eq_left] at ht
    obtain ⟨t1, h1, t2, h2, t3, h3, t4, h4, h5⟩ := ht
    obtain ⟨d, vd, ed⟩ := mem_step_optUnit 1 'd' isDigit_d _ _ h1
    obtain ⟨h, vh, eh⟩ := mem_step_optUnit 2 'h' isDigit_h _ _ h2
    obtain ⟨m, vm, em⟩ := mem_step_optUnit 3 'm' isDigit_m _ _ h3
    obtain ⟨s, vs, es⟩ := mem_step_optUnit 4 's' isDigit_s _ _ h4
    have hend : t4.rest = [] := by
      rw [step_endText] at h5
      by_contra hne
      simp [hne] at h5
    refine ⟨d, h, m, s, vd, vh, vm, vs, ?_⟩
    simp only at ed
    rw [ed, eh, em, es, hend, durationText]
    simp
  · rintro ⟨d, h, m, s, vd, vh, vm, vs, rfl⟩
    obtain ⟨t1, h1, e1⟩ := step_optUnit_component 1 'd' isDigit_d d vd ⟨0, durationText d h m s, []⟩
      (component 'h' h ++ (component 'm' m ++ component 's' s)) rfl
    obtain ⟨t2, h2, e2⟩ := step_optUnit_component 2 'h' isDigit_h h vh t1
      (component 'm' m ++ component 's' s) e1
    obtain ⟨t3, h3, e3⟩ := step_optUnit_component 3 'm' isDigit_m m vm t2
      (component 's' s) e2
    obtain ⟨t4, h4, e4⟩ := step_optUnit_component 4 's' isDigit_s s vs t3 [] (by simp [e3])
    refine ⟨t4, ?_⟩
    simp only [durationPattern, step_cat, List.mem_flatMap, step_beginText, if_true,
      List.mem_singleton, exists_eq_left]
    exact ⟨t1, h1, t2, h2, t3, h3, t4, h4, by simp [step_endText, e4]⟩

theorem findAt_durationPattern_pos (text : List Char) :
    ∀ pos, 0 < pos → findAt durationPattern pos text = none := by
  induction text with
  | nil =>
    intro pos hp
    have : step durationPattern ⟨pos, [], []⟩ = [] := by
      simp [durationPattern, step_cat, step_beginText, Nat.pos_iff_ne_zero.mp hp]
    simp [findAt, this]
  | cons c r ih =>
    intro pos hp
    have : step durationPattern ⟨pos, c :: r, []⟩ = [] := by
      simp [durationPattern, step_cat, step_beginText, Nat.pos_iff_ne_zero.mp hp]
    simp [findAt, this, ih (pos + 1) (Nat.succ_pos _)]

/-- The call `durationPattern.MatchString` accepts exactly the texts of the grammar. -/
theorem matchString_durationPattern (text : List Char) :
    MatchString durationPattern text = true ↔ InGrammar text := by
  rw [← step_durationPattern_iff]
  unfold MatchString
  cases text with
  | nil =>
    cases hs : step durationPattern ⟨0, [], []⟩ with
    | nil => simp [findAt, hs]
    | cons t ts => simp [findAt, hs]
  | cons c r =>
    cases hs : step durationPattern ⟨0, c :: r, []⟩ with
    | nil => simp [findAt, hs, findAt_durationPattern_pos r 1 (by decide)]
    | cons t ts => simp [findAt, hs]

theorem skips_nil (u : Char) : Skips u [] := by
  intro pos rest
  simp

theorem skips_append (u : Char) (w1 w2 : List Char) (h1 : Skips u w1) (h2 : Skips u w2) :
    Skips u (w1 ++ w2) := by
  intro pos rest
  rw [List.append_assoc, h1, h2, List.length_append, Nat.add_assoc]

theorem findAt_cons_of_nil (re : Regex) (pos : Nat) (c : Char) (r : List Char)
    (h : step re ⟨pos, c :: r, []⟩ = []) : findAt re pos (c :: r) = findAt re (pos + 1) r := by
  simp [findAt, h]

theorem findAt_unitPattern_nil (u : Char) (hu : isDigit u = false) (pos : Nat) :
    findAt (unitPattern u) pos [] = none := by
  simp [findAt, step_unitPattern u hu, digitsThen]

theorem findAt_skip_digits (u v : Char) (hu : isDigit u = false) (hv : isDigit v = false)
    (hne : v ≠ u) (rest : List Char) :
    ∀ (ds : List Char) (pos : Nat), (∀ c ∈ ds, isDigit c = true) →
      findAt (unitPattern u) pos (ds ++ v :: rest) =
        findAt (unitPattern u) (pos + (ds.length + 1)) rest := by
  intro ds
  induction ds with
  | nil =>
    intro pos _
    have h0 : step (unitPattern u) ⟨pos, v :: rest, []⟩ = [] := by
      rw [step_unitPattern u hu, digitsThen_nondigit u v rest hv]
    simpa using findAt_cons_of_nil _ pos v rest h0
  | cons c ds ih =>
    intro pos h
    have h0 : step (unitPattern u) ⟨pos, c :: (ds ++ v :: rest), []⟩ = [] := by
      rw [step_unitPattern u hu]
      have := digitsThen_other u v hu hv hne rest (c :: ds) h
      simp only [List.cons_append] at this
      rw [this]
    rw [List.cons_append, findAt_cons_of_nil _ pos c _ h0,
      ih (pos + 1) (fun x hx => h x (List.mem_cons_of_mem _ hx))]
    simp only [List.length_cons]
    congr 1
    omega

/-- The search for one unit walks through a component of another unit. -/
theorem skips_component (u v : Char) (hu : isDigit u = false) (hv : isDigit v = false)
    (hne : v ≠ u) (o : Option (List Char)) (ho : ValidPart o) : Skips u (component v o) := by
  cases o with
  | none => exact skips_nil u
  | some ds =>
    intro pos rest
    have := findAt_skip_digits u v hu hv hne rest ds pos ho.2
    simpa [component] using this

theorem findAt_hit (u : Char) (hu : isDigit u = false) (ds : List Char) (hds : IsDigits ds)
    (pos : Nat) (rest : List Char) :
    findAt (unitPattern u) pos (ds ++ u :: rest) =
      some (pos, ⟨pos + ds.length + 1, rest, [(1, ds)]⟩) := by
  have hd := digitsThen_append u hu rest ds hds
  cases ds with
  | nil => exact absurd rfl hds.1
  | cons c ds1 =>
    simp only [List.cons_append] at hd ⊢
    simp [findAt, step_unitPattern u hu, hd]

/-- What the extraction pattern of a unit finds in a text in which the component
of that unit stands between stretches of text belonging to other units. -/
theorem findStringSubmatch_component (u : Char) (hu : isDigit u = false) (pre post : List Char)
    (o : Option (List Char)) (ho : ValidPart o) (hpre : Skips u pre) (hpost : Skips u post) :
    FindStringSubmatch (unitPattern u) (pre ++ (component u o ++ post)) = submatchOf u o := by
  unfold FindStringSubmatch
  rw [hpre]
  cases o with
  | none =>
    have := hpost (0 + pre.length) []
    simp only [List.append_nil, Nat.zero_add] at this
    rw [findAt_unitPattern_nil u hu] at this
    simp [component, this, submatchOf]
  | some ds =>
    have hh := findAt_hit u hu ds ho (0 + pre.length) post
    have e : component u (some ds) ++ post = ds ++ u :: post := by simp [component]
    rw [e, hh]
    have hn : numCap (unitPattern u) = 1 := by simp [unitPattern, numCap]
    simp only [hn, Nat.zero_add, List.drop_left', take_unit]
    simp [List.range_succ, List.lookup, submatchOf]

theorem ne_of_decide {a b : Char} (h : decide (a = b) = false) : a ≠ b := by
  simpa using h

/-- The four extraction searches on a text of the grammar. -/
theorem findStringSubmatch_durationText (d h m s : Option (List Char))
    (vd : ValidPart d) (vh : ValidPart h) (vm : ValidPart m) (vs : ValidPart s) :
    FindStringSubmatch (unitPattern 'd') (durationText d h m s) = submatchOf 'd' d ∧
    FindStringSubmatch (unitPattern 'h') (durationText d h m s) = submatchOf 'h' h ∧
    FindStringSubmatch (unitPattern 'm') (durationText d h m s) = submatchOf 'm' m ∧
    FindStringSubmatch (unitPattern 's') (durationText d h m s) = submatchOf 's' s := by
  have sk : ∀ (u v : Char), isDigit u = false → isDigit v = false → decide (v = u) = false →
      ∀ o, ValidPart o → Skips u (component v o) :=
    fun u v hu hv hne o ho => skips_component u v hu hv (ne_of_decide hne) o ho
  refine ⟨?_, ?_, ?_, ?_⟩
  · have := findStringSubmatch_component 'd' isDigit_d []
      (component 'h' h ++ (component 'm' m ++ component 's' s)) d vd (skips_nil _)
      (skips_append _ _ _ (sk 'd' 'h' isDigit_d isDigit_h (by decide) h vh)
        (skips_append _ _ _ (sk 'd' 'm' isDigit_d isDigit_m (by decide) m vm)
          (sk 'd' 's' isDigit_d isDigit_s (by decide) s vs)))
    simpa [durationText] using this
  · have := findStringSubmatch_component 'h' isDigit_h (component 'd' d)
      (component 'm' m ++ component 's' s) h vh
      (sk 'h' 'd' isDigit_h isDigit_d (by decide) d vd)
      (skips_append _ _ _ (sk 'h' 'm' isDigit_h isDigit_m (by decide) m vm)
        (sk 'h' 's' isDigit_h isDigit_s (by decide) s vs))
    simpa [durationText] using this
  · have := findStringSubmatch_component 'm' isDigit_m (component 'd' d ++ component 'h' h)
      (component 's' s) m vm
      (skips_append _ _ _ (sk 'm' 'd' isDigit_m isDigit_d (by decide) d vd)
        (sk 'm' 'h' isDigit_m isDigit_h (by decide) h vh))
      (sk 'm' 's' isDigit_m isDigit_s (by decide) s vs)
    simpa [durationText] using this
  · have := findStringSubmatch_component 's' isDigit_s
      (component 'd' d ++ (component 'h' h ++ component 'm' m)) [] s vs
      (skips_append _ _ _ (sk 's' 'd' isDigit_s isDigit_d (by decide) d vd)
        (skips_append _ _ _ (sk 's' 'h' isDigit_s isDigit_h (by decide) h vh)
          (sk 's' 'm' isDigit_s isDigit_m (by decide) m vm)))
      (skips_nil _)
    simpa [durationText] using this

theorem isDigit_ne_sign (c : Char) (hc : isDigit c = true) : c ≠ '-' ∧ c ≠ '+' := by
  constructor <;> (intro e; subst e; exact absurd hc (by decide))

/-- The result of `Atoi` on a non-empty run of digits: the decimal value when it fits an `int`,
`ErrRange` otherwise. -/
theorem atoi_digits (ds : List Char) (hds : IsDigits ds) :
    Atoi ds =
      if maxInt < (decimalValue ds : Nat) then (maxInt, some (.numError "Atoi" ds .errRange))
      else (((decimalValue ds : Nat) : Int), none) := by
  obtain ⟨hne, hall⟩ := hds
  cases ds with
  | nil => exact absurd rfl hne
  | cons c r =>
    have hc := hall c (List.mem_cons_self _ _)
    obtain ⟨h1, h2⟩ := isDigit_ne_sign c hc
    have hall' : (c :: r).all isDigit = true := by
      rw [List.all_eq_true]; exact hall
    unfold Atoi
    simp only [List.head?_cons, Option.some.injEq, h1, h2, decide_False, or_self, if_false,
      hall', Bool.true_eq_false, reduceCtorEq, or_false, true_and, Bool.false_eq_true, false_and]

theorem convertField_submatchOf (dur : TimeUnitDuration) (u : Char) (o : Option (List Char))
    (set : TimeUnitDuration → Int → TimeUnitDuration) (h0 : set dur 0 = dur) :
    convertField dur (submatchOf u o) set =
      match atoiPart o with
      | (_, some e) => .error (dur, e)
      | (v, none) => .ok (set dur v) := by
  cases o with
  | none => simp [convertField, submatchOf, atoiPart, h0]
  | some ds => simp [convertField, submatchOf, atoiPart]

theorem parse_durationText (d h m s : Option (List Char))
    (vd : ValidPart d) (vh : ValidPart h) (vm : ValidPart m) (vs : ValidPart s) :
    ParseTimeUnitDuration (durationText d h m s) = convertParts d h m s := by
  have hm : MatchString durationPattern (durationText d h m s) = true :=
    (matchString_durationPattern _).mpr ⟨d, h, m, s, vd, vh, vm, vs, rfl⟩
  obtain ⟨fd, fh, fm, fs⟩ := findStringSubmatch_durationText d h m s vd vh vm vs
  unfold ParseTimeUnitDuration parseBody convertParts
  simp only [hm, fd, fh, fm, fs, Bool.true_eq_false, if_false]
  rw [convertField_submatchOf _ _ _ _ rfl]
  rcases atoiPart d with ⟨xd, _ | ed⟩
  · simp only [Except.bind]
    rw [convertField_submatchOf _ _ _ _ rfl]
    rcases atoiPart h with ⟨xh, _ | eh⟩
    · simp only [Except.bind]
      rw [convertField_submatchOf _ _ _ _ rfl]
      rcases atoiPart m with ⟨xm, _ | em⟩
      · simp only [Except.bind]
        rw [convertField_submatchOf _ _ _ _ rfl]
        rcases atoiPart s with ⟨xs, _ | es⟩
        · rfl
        · rfl
      · rfl
    · rfl
  · rfl

theorem atoiPart_cases (o : Option (List Char)) (ho : ValidPart o) :
    (partValue o ≤ maxInt ∧ atoiPart o = (partValue o, none)) ∨
      (maxInt < partValue o ∧
        ∃ ds, atoiPart o = (maxInt, some (.numError "Atoi" ds .errRange))) := by
  cases o with
  | none => left; exact ⟨by decide, rfl⟩
  | some ds =>
    simp only [atoiPart, partValue, atoi_digits ds ho]
    by_cases hb : maxInt < (decimalValue ds : Nat)
    · right; exact ⟨hb, ds, by simp [hb]⟩
    · left; exact ⟨not_lt.mp hb, by simp [hb]⟩

theorem atoiPart_ok (o : Option (List Char)) (ho : ValidPart o) (hb : partValue o ≤ maxInt) :
    atoiPart o = (partValue o, none) := by
  rcases atoiPart_cases o ho with h | h
  · exact h.2
  · exact absurd h.1 (not_lt.mpr hb)

theorem parse_not_inGrammar (text : List Char) (h : ¬ InGrammar text) :
    ParseTimeUnitDuration text = (TimeUnitDuration.zero, some errInvalidFormat) := by
  have hm : MatchString durationPattern text = false := by
    cases hb : MatchString durationPattern text with
    | false => rfl
    | true => exact absurd ((matchString_durationPattern text).mp hb) h
  simp [ParseTimeUnitDuration, parseBody, hm]

theorem isUnitLetter_iff (c : Char) :
    isUnitLetter c = true ↔ c = 'd' ∨ c = 'h' ∨ c = 'm' ∨ c = 's' := by
  simp [isUnitLetter, or_assoc]

theorem isUnitLetter_of_isDigit (c : Char) (hc : isDigit c = true) : isUnitLetter c = false := by
  cases hu : isUnitLetter c with
  | false => rfl
  | true =>
    rcases (isUnitLetter_iff c).mp hu with rfl | rfl | rfl | rfl <;> exact absurd hc (by decide)

theorem mem_component (u : Char) (o : Option (List Char)) (ho : ValidPart o) (c : Char)
    (hc : c ∈ component u o) : isDigit c = true ∨ c = u := by
  cases o with
  | none => simp [component] at hc
  | some ds =>
    simp only [component, List.mem_append, List.mem_singleton] at hc
    rcases hc with hc | hc
    · exact Or.inl (ho.2 c hc)
    · exact Or.inr hc

/-- A text of the grammar holds only digits and unit letters. -/
theorem inGrammar_chars (text : List Char) (h : InGrammar text) (c : Char) (hc : c ∈ text) :
    isDigit c = true ∨ isUnitLetter c = true := by
  obtain ⟨d, h, m, s, vd, vh, vm, vs, rfl⟩ := h
  simp only [durationText, List.mem_append] at hc
  rcases hc with hc | hc | hc | hc
  · rcases mem_component _ _ vd c hc with h | rfl
    · exact Or.inl h
    · exact Or.inr (by decide)
  · rcases mem_component _ _ vh c hc with h | rfl
    · exact Or.inl h
    · exact Or.inr (by decide)
  · rcases mem_component _ _ vm c hc with h | rfl
    · exact Or.inl h
    · exact Or.inr (by decide)
  · rcases mem_component _ _ vs c hc with h | rfl
    · exact Or.inl h
    · exact Or.inr (by decide)

theorem filter_component (u : Char) (hu : isUnitLetter u = true) (o : Option (List Char))
    (ho : ValidPart o) : List.Sublist ((component u o).filter isUnitLetter) [u] := by
  cases o with
  | none => simp [component]
  | some ds =>
    have hf : ds.filter isUnitLetter = [] := by
      rw [List.filter_eq_nil_iff]
      intro c hc
      simp [isUnitLetter_of_isDigit c (ho.2 c hc)]
    simp [component, List.filter_append, hf, hu]

/-- The unit letters of a text of the grammar, in their order of occurrence, are
a subsequence of d, h, m, s. -/
theorem filter_durationText (d h m s : Option (List Char))
    (vd : ValidPart d) (vh : ValidPart h) (vm : ValidPart m) (vs : ValidPart s) :
    List.Sublist ((durationText d h m s).filter isUnitLetter) ['d', 'h', 'm', 's'] := by
  have h1 := filter_component 'd' (by decide) d vd
  have h2 := filter_component 'h' (by decide) h vh
  have h3 := filter_component 'm' (by decide) m vm
  have h4 := filter_component 's' (by decide) s vs
  have := h1.append (h2.append (h3.append h4))
  simpa [durationText, List.filter_append] using this

/-- In a text of the grammar a unit letter that stands before another one comes
earlier in the order d, h, m, s. -/
theorem inGrammar_order (text : List Char) (h : InGrammar text) (a b : Char)
    (hab : List.Sublist [a, b] text) (ha : isUnitLetter a = true) (hb : isUnitLetter b = true) :
    unitRank a < unitRank b := by
  obtain ⟨d, h, m, s, vd, vh, vm, vs, rfl⟩ := h
  have h1 := hab.filter isUnitLetter
  have h2 : [a, b].filter isUnitLetter = [a, b] := by simp [ha, hb]
  rw [h2] at h1
  have h3 := h1.trans (filter_durationText d h m s vd vh vm vs)
  have hp : List.Pairwise (fun x y => unitRank x < unitRank y) ['d', 'h', 'm', 's'] := by
    decide
  exact List.pairwise_iff_forall_sublist.mp hp h3

/-- A text of the grammar is not a bare run of digits. -/
theorem inGrammar_not_digits (text : List Char) (h : InGrammar text) : ¬ IsDigits text := by
  intro hd
  obtain ⟨d, h, m, s, vd, vh, vm, vs, rfl⟩ := h
  have key : ∀ (u : Char) (o : Option (List Char)), isDigit u = false →
      (∀ c ∈ component u o, isDigit c = true) → o = none := by
    intro u o hu hall
    cases o with
    | none => rfl
    | some ds =>
      have := hall u (by simp [component])
      rw [hu] at this
      exact Bool.noConfusion this
  have e1 := key 'd' d isDigit_d (fun c hc => hd.2 c (by simp [durationText, hc]))
  have e2 := key 'h' h isDigit_h (fun c hc => hd.2 c (by simp [durationText, hc]))
  have e3 := key 'm' m isDigit_m (fun c hc => hd.2 c (by simp [durationText, hc]))
  have e4 := key 's' s isDigit_s (fun c hc => hd.2 c (by simp [durationText, hc]))
  subst e1 e2 e3 e4
  exact hd.1 rfl

/-! Parsing -/

/-- C1: for a text `days? hours? minutes? seconds?` whose numbers each fit an
`int`, `ParseTimeUnitDuration` returns no error and every field holds the decimal
value of the digits in front of its unit letter, 0 for an absent unit; nothing is
carried from one unit to another. -/
theorem parse_grammar_fields (d h m s : Option (List Char))
    (vd : ValidPart d) (vh : ValidPart h) (vm : ValidPart m) (vs : ValidPart s)
    (bd : partValue d ≤ maxInt) (bh : partValue h ≤ maxInt)
    (bm : partValue m ≤ maxInt) (bs : partValue s ≤ maxInt) :
    ParseTimeUnitDuration (durationText d h m s) =
      (⟨partValue d, partValue h, partValue m, partValue s⟩, none) := by
  rw [parse_durationText d h m s vd vh vm vs, convertParts, atoiPart_ok d vd bd,
    atoiPart_ok h vh bh, atoiPart_ok m vm bm, atoiPart_ok s vs bs]

theorem parse_grammar_fields_witness :
    ParseTimeUnitDuration ['1', '0', '0', 'h'] = (⟨0, 100, 0, 0⟩, none) :=
  parse_grammar_fields none (some ['1', '0', '0']) none none
    (by decide) (by decide) (by decide) (by decide)
    (by decide) (by decide) (by decide) (by decide)

/-- C2: `ParseTimeUnitDuration` returns the format error for every text outside
the grammar `days? hours? minutes? seconds?`: in particular for a text with a
character that is neither a digit nor a unit letter, for a text in which a unit
letter is followed, anywhere later, by the same letter or by a letter that comes
earlier in the order d, h, m, s, and for a bare run of digits. -/
theorem parse_rejects (text : List Char)
    (h : ¬ InGrammar text ∨
      (∃ c ∈ text, isDigit c = false ∧ isUnitLetter c = false) ∨
      (∃ a b, List.Sublist [a, b] text ∧ isUnitLetter a = true ∧ isUnitLetter b = true ∧
        unitRank b ≤ unitRank a) ∨
      IsDigits text) :
    ParseTimeUnitDuration text = (TimeUnitDuration.zero, some errInvalidFormat) := by
  apply parse_not_inGrammar
  intro hg
  rcases h with h | ⟨c, hc, h1, h2⟩ | ⟨a, b, hab, ha, hb, hr⟩ | h
  · exact h hg
  · rcases inGrammar_chars text hg c hc with h | h
    · rw [h1] at h; exact Bool.noConfusion h
    · rw [h2] at h; exact Bool.noConfusion h
  · exact absurd (inGrammar_order text hg a b hab ha hb) (not_lt.mpr hr)
  · exact inGrammar_not_digits text hg h

theorem parse_rejects_witness :
    ParseTimeUnitDuration ['3', 'h', '2', 'd'] = (TimeUnitDuration.zero, some errInvalidFormat) :=
  parse_rejects ['3', 'h', '2', 'd']
    (Or.inr (Or.inr (Or.inl ⟨'h', 'd', by decide, by decide, by decide, by decide⟩)))

/-- C9: a text of the grammar in which some number exceeds the largest `int`
makes `ParseTimeUnitDuration` return an error, the range error of `strconv.Atoi`. -/
theorem parse_overflow (d h m s : Option (List Char))
    (vd : ValidPart d) (vh : ValidPart h) (vm : ValidPart m) (vs : ValidPart s)
    (hov : maxInt < partValue d ∨ maxInt < partValue h ∨ maxInt < partValue m ∨
      maxInt < partValue s) :
    ∃ ds, (ParseTimeUnitDuration (durationText d h m s)).2 =
      some (.numError "Atoi" ds .errRange) := by
  rw [parse_durationText d h m s vd vh vm vs, convertParts]
  rcases atoiPart_cases d vd with ⟨bd, ed⟩ | ⟨-, ds, ed⟩
  · rcases atoiPart_cases h vh with ⟨bh, eh⟩ | ⟨-, ds, eh⟩
    · rcases atoiPart_cases m vm with ⟨bm, em⟩ | ⟨-, ds, em⟩
      · rcases atoiPart_cases s vs with ⟨bs, es⟩ | ⟨-, ds, es⟩
        · rcases hov with h | h | h | h
          · exact absurd h (not_lt.mpr bd)
          · exact absurd h (not_lt.mpr bh)
          · exact absurd h (not_lt.mpr bm)
          · exact absurd h (not_lt.mpr bs)
        · exact ⟨ds, by rw [ed, eh, em, es]⟩
      · exact ⟨ds, by rw [ed, eh, em]⟩
    · exact ⟨ds, by rw [ed, eh]⟩
  · exact ⟨ds, by rw [ed]⟩

theorem parse_overflow_witness :
    ∃ ds, (ParseTimeUnitDuration
        (['5', 'm'] ++ ['9', '2', '2', '3', '3', '7', '2', '0', '3', '6', '8', '5', '4', '7',
          '7', '5', '8', '0', '8', 's'])).2 = some (.numError "Atoi" ds .errRange) :=
  parse_overflow none none (some ['5'])
    (some ['9', '2', '2', '3', '3', '7', '2', '0', '3', '6', '8', '5', '4', '7', '7', '5', '8',
      '0', '8'])
    (by decide) (by decide) (by decide) (by decide)
    (Or.inr (Or.inr (Or.inr (by decide))))

/-- C10: on the text `1d99999999999999999999h` the value returned with the error
has days = 1: the day count converted before the hour count overflowed stays in
the result. -/
theorem parse_error_keeps_earlier_fields :
    ParseTimeUnitDuration
        ['1', 'd', '9', '9', '9', '9', '9', '9', '9', '9', '9', '9', '9', '9', '9', '9', '9',
          '9', '9', '9', '9', '9', 'h'] =
      (⟨1, 0, 0, 0⟩,
        some (.numError "Atoi"
          ['9', '9', '9', '9', '9', '9', '9', '9', '9', '9', '9', '9', '9', '9', '9', '9', '9',
            '9', '9', '9'] .errRange)) := by
  decide

/-! Decimal text of numbers -/

theorem formatBits_acc : ∀ (fuel n : Nat) (acc : List Char), n < fuel →
    formatBits fuel n acc = formatBits fuel n [] ++ acc := by
  intro fuel
  induction fuel with
  | zero => intro n acc h; omega
  | succ fuel ih =>
    intro n acc h
    by_cases h10 : n < 10
    · simp [formatBits, h10]
    · have hlt : n / 10 < fuel := by omega
      simp only [formatBits, h10, if_false]
      rw [ih (n / 10) (digitChar (n % 10) :: acc) hlt, ih (n / 10) [digitChar (n % 10)] hlt]
      simp

theorem formatBits_fuel : ∀ (fuel1 fuel2 n : Nat) (acc : List Char), n < fuel1 → n < fuel2 →
    formatBits fuel1 n acc = formatBits fuel2 n acc := by
  intro fuel1
  induction fuel1 with
  | zero => intro fuel2 n acc h; omega
  | succ fuel1 ih =>
    intro fuel2 n acc h1 h2
    cases fuel2 with
    | zero => omega
    | succ fuel2 =>
      by_cases h10 : n < 10
      · simp [formatBits, h10]
      · simp only [formatBits, h10, if_false]
        exact ih fuel2 (n / 10) _ (by omega) (by omega)

theorem formatNat_lt (n : Nat) (h : n < 10) : formatNat n = [digitChar n] := by
  simp [formatNat, formatBits, h]

theorem formatNat_ge (n : Nat) (h : 10 ≤ n) :
    formatNat n = formatNat (n / 10) ++ [digitChar (n % 10)] := by
  have h10 : ¬ n < 10 := by omega
  have hlt : n / 10 < n := by omega
  have e : formatNat n = formatBits n (n / 10) [digitChar (n % 10)] := by
    show formatBits (n + 1) n [] = _
    rw [formatBits]
    simp [h10]
  rw [e, formatBits_acc n (n / 10) _ hlt, formatBits_fuel n (n / 10 + 1) (n / 10) [] hlt (by omega)]
  rfl

theorem digitChar_spec (n : Nat) (h : n < 10) :
    isDigit (digitChar n) = true ∧ (digitChar n).toNat - 48 = n ∧
      (digitChar n = '0' → n = 0) := by
  interval_cases n <;> decide

theorem decimalValue_append (a : List Char) (c : Char) :
    decimalValue (a ++ [c]) = decimalValue a * 10 + (c.toNat - 48) := by
  simp [decimalValue, List.foldl_append]

/-- The value of a digit run is the number its digits denote in base 10. -/
theorem decimalValue_eq_ofDigits (ds : List Char) :
    decimalValue ds = Nat.ofDigits 10 (ds.reverse.map (fun c => c.toNat - 48)) := by
  induction ds using List.reverseRecOn with
  | nil => rfl
  | append_singleton a c ih =>
    rw [decimalValue_append, ih]
    simp [Nat.ofDigits_cons]
    omega

/-- The text `strconv` makes of a natural number is its decimal text. -/
theorem formatNat_isDecimalOf (n : Nat) : IsDecimalOf (formatNat n) n := by
  induction n using Nat.strong_induction_on with
  | _ n ih =>
    by_cases h10 : n < 10
    · obtain ⟨h1, h2, h3⟩ := digitChar_spec n h10
      rw [formatNat_lt n h10]
      refine ⟨⟨by simp, by simpa using h1⟩, by simpa [decimalValue] using h2, ?_⟩
      intro h
      simp only [List.head?_cons, Option.some.injEq] at h
      have := h3 h
      subst this
      rfl
    · have hlt : n / 10 < n := by omega
      obtain ⟨⟨g1, g2⟩, g3, g4⟩ := ih (n / 10) hlt
      obtain ⟨h1, h2, -⟩ := digitChar_spec (n % 10) (Nat.mod_lt _ (by decide))
      rw [formatNat_ge n (by omega)]
      refine ⟨⟨by simp, ?_⟩, ?_, ?_⟩
      · intro c hc
        rcases List.mem_append.mp hc with hc | hc
        · exact g2 c hc
        · rw [List.mem_singleton.mp hc]; exact h1
      · rw [decimalValue_append, g3, h2]; omega
      · intro h
        exfalso
        cases hf : formatNat (n / 10) with
        | nil => exact g1 hf
        | cons c r =>
          rw [hf] at h g3 g4
          simp only [List.cons_append, List.head?_cons] at h
          have := g4 h
          rw [this] at g3
          have : decimalValue ['0'] = 0 := by decide
          omega

theorem formatInt_nonneg (v : Int) (h : 0 ≤ v) : formatInt v = formatNat v.toNat := by
  simp [formatInt, not_lt.mpr h]

/-! Formatting -/

theorem validPart_numPart (v : Int) (force : Bool) : ValidPart (numPart v force) := by
  unfold numPart
  split
  · exact (formatNat_isDecimalOf _).1
  · trivial

theorem partValue_numPart (v : Int) (force : Bool) (h : 0 ≤ v) : partValue (numPart v force) = v := by
  unfold numPart
  split
  · simp [partValue, (formatNat_isDecimalOf v.toNat).2.1, Int.toNat_of_nonneg h]
  · rename_i hn
    simp only [not_or] at hn
    simp only [partValue]
    omega

/-- For non-negative fields the text of `String` is the text of the grammar made
of its components; the final fallback of `String` is not taken. -/
theorem string_eq_durationText (t : TimeUnitDuration) (h : t.NonNeg) :
    t.String = durationText (stringParts t).1 (stringParts t).2.1 (stringParts t).2.2.1
      (stringParts t).2.2.2 := by
  obtain ⟨h1, h2, h3, h4⟩ := h
  unfold TimeUnitDuration.String stringParts numPart durationText
  simp only [Sprintf, formatInt_nonneg _ h1, formatInt_nonneg _ h2, formatInt_nonneg _ h3,
    formatInt_nonneg _ h4]
  by_cases p1 : 0 < t.days <;> by_cases p2 : 0 < t.hours <;> by_cases p3 : 0 < t.minutes <;>
    by_cases p4 : 0 < t.seconds <;>
    simp [p1, p2, p3, p4, component, ne_of_gt]
  have e1 : t.days = 0 := by omega
  have e2 : t.hours = 0 := by omega
  have e3 : t.minutes = 0 := by omega
  simp [e1, e2, e3]

theorem stringParts_valid (t : TimeUnitDuration) :
    ValidPart (stringParts t).1 ∧ ValidPart (stringParts t).2.1 ∧
      ValidPart (stringParts t).2.2.1 ∧ ValidPart (stringParts t).2.2.2 :=
  ⟨validPart_numPart _ _, validPart_numPart _ _, validPart_numPart _ _, validPart_numPart _ _⟩

theorem string_inGrammar (t : TimeUnitDuration) (h : t.NonNeg) : InGrammar t.String := by
  obtain ⟨v1, v2, v3, v4⟩ := stringParts_valid t
  exact ⟨_, _, _, _, v1, v2, v3, v4, string_eq_durationText t h⟩

theorem parse_string (t : TimeUnitDuration) (h : t.NonNeg) (hr : t.InRange) :
    ParseTimeUnitDuration t.String = (t, none) := by
  obtain ⟨v1, v2, v3, v4⟩ := stringParts_valid t
  obtain ⟨h1, h2, h3, h4⟩ := h
  obtain ⟨r1, r2, r3, r4⟩ := hr
  rw [string_eq_durationText t ⟨h1, h2, h3, h4⟩, parse_durationText _ _ _ _ v1 v2 v3 v4,
    convertParts]
  have a1 := atoiPart_ok (stringParts t).1 v1 (by
    rw [stringParts, partValue_numPart _ _ h1]; exact r1)
  have a2 := atoiPart_ok (stringParts t).2.1 v2 (by
    rw [stringParts, partValue_numPart _ _ h2]; exact r2)
  have a3 := atoiPart_ok (stringParts t).2.2.1 v3 (by
    rw [stringParts, partValue_numPart _ _ h3]; exact r3)
  have a4 := atoiPart_ok (stringParts t).2.2.2 v4 (by
    rw [stringParts, partValue_numPart _ _ h4]; exact r4)
  rw [a1, a2, a3, a4]
  simp only [stringParts, partValue_numPart _ _ h1, partValue_numPart _ _ h2,
    partValue_numPart _ _ h3, partValue_numPart _ _ h4]

/-- C3: for non-negative fields `String` is the concatenation of the day count
followed by d when days > 0, the hour count followed by h when hours > 0, the
minute count followed by m when minutes > 0, and the second count followed by s
when seconds > 0 or days, hours and minutes are all 0, every count in decimal
without leading zeros; the zero value gives 0s and the value 2, 3, 45, 30 gives
2d3h45m30s. -/
theorem string_nonneg (t : TimeUnitDuration) (h : t.NonNeg) :
    (∃ D H M S, IsDecimalOf D t.days.toNat ∧ IsDecimalOf H t.hours.toNat ∧
      IsDecimalOf M t.minutes.toNat ∧ IsDecimalOf S t.seconds.toNat ∧
      t.String =
        (if 0 < t.days then D ++ ['d'] else []) ++
        ((if 0 < t.hours then H ++ ['h'] else []) ++
        ((if 0 < t.minutes then M ++ ['m'] else []) ++
        (if 0 < t.seconds ∨ (t.days = 0 ∧ t.hours = 0 ∧ t.minutes = 0) then S ++ ['s']
          else []))))
    ∧ TimeUnitDuration.String ⟨0, 0, 0, 0⟩ = ['0', 's']
    ∧ TimeUnitDuration.String ⟨2, 3, 45, 30⟩ =
        ['2', 'd', '3', 'h', '4', '5', 'm', '3', '0', 's'] := by
  refine ⟨⟨formatNat t.days.toNat, formatNat t.hours.toNat, formatNat t.minutes.toNat,
    formatNat t.seconds.toNat, formatNat_isDecimalOf _, formatNat_isDecimalOf _,
    formatNat_isDecimalOf _, formatNat_isDecimalOf _, ?_⟩, by decide, by decide⟩
  rw [string_eq_durationText t h]
  simp only [stringParts, numPart, durationText, Bool.false_eq_true, or_false,
    decide_eq_true_eq]
  congr 1
  · split <;> rfl
  congr 1
  · split <;> rfl
  congr 1
  · split <;> rfl
  · split <;> rfl

theorem string_nonneg_witness :
    (∃ D H M S, IsDecimalOf D sample.days.toNat ∧ IsDecimalOf H sample.hours.toNat ∧
      IsDecimalOf M sample.minutes.toNat ∧ IsDecimalOf S sample.seconds.toNat ∧
      sample.String =
        (if 0 < sample.days then D ++ ['d'] else []) ++
        ((if 0 < sample.hours then H ++ ['h'] else []) ++
        ((if 0 < sample.minutes then M ++ ['m'] else []) ++
        (if 0 < sample.seconds ∨ (sample.days = 0 ∧ sample.hours = 0 ∧ sample.minutes = 0) then
          S ++ ['s'] else []))))
    ∧ TimeUnitDuration.String ⟨0, 0, 0, 0⟩ = ['0', 's']
    ∧ TimeUnitDuration.String ⟨2, 3, 45, 30⟩ =
        ['2', 'd', '3', 'h', '4', '5', 'm', '3', '0', 's'] :=
  string_nonneg sample (by decide)

/-- C4: for non-negative fields (within the range of `int`) parsing the text of
`String` returns no error and the same four fields; so formatting and parsing
once more changes nothing. -/
theorem parse_string_roundtrip (t : TimeUnitDuration) (h : t.NonNeg) (hr : t.InRange) :
    ParseTimeUnitDuration t.String = (t, none) ∧
      ParseTimeUnitDuration (ParseTimeUnitDuration t.String).1.String =
        ParseTimeUnitDuration t.String := by
  have e := parse_string t h hr
  exact ⟨e, by rw [e]; exact e⟩

theorem parse_string_roundtrip_witness :
    ParseTimeUnitDuration (TimeUnitDuration.String ⟨0, 100, 5, 0⟩) = (⟨0, 100, 5, 0⟩, none) ∧
      ParseTimeUnitDuration
          (ParseTimeUnitDuration (TimeUnitDuration.String ⟨0, 100, 5, 0⟩)).1.String =
        ParseTimeUnitDuration (TimeUnitDuration.String ⟨0, 100, 5, 0⟩) :=
  parse_string_roundtrip ⟨0, 100, 5, 0⟩ (by decide) (by decide)

/-! Conversion to `time.Duration` -/

/-- The constant `time.Second` is 10^9 nanoseconds. -/
theorem second_eq : Second = 1000000000 := rfl

/-- C5: for non-negative fields whose total number of seconds
T = seconds + minutes*60 + hours*3600 + days*86400 satisfies T * 10^9 ≤ 2^63 - 1,
`Duration` is exactly T * 10^9 nanoseconds; so 1 day is 86400 * 10^9 ns, 1 hour
3600 * 10^9 ns, 1 minute 60 * 10^9 ns and 1 day 2 hours 30 minutes 15 seconds
95415 * 10^9 ns. -/
theorem duration_exact (t : TimeUnitDuration) (h : t.NonNeg)
    (hT : (t.seconds + t.minutes * 60 + t.hours * 3600 + t.days * 86400) * 1000000000 ≤
      9223372036854775807) :
    t.Duration =
        (t.seconds + t.minutes * 60 + t.hours * 3600 + t.days * 86400) * 1000000000 ∧
      TimeUnitDuration.Duration ⟨1, 0, 0, 0⟩ = 86400000000000 ∧
      TimeUnitDuration.Duration ⟨0, 1, 0, 0⟩ = 3600000000000 ∧
      TimeUnitDuration.Duration ⟨0, 0, 1, 0⟩ = 60000000000 ∧
      TimeUnitDuration.Duration ⟨1, 2, 30, 15⟩ = 95415000000000 := by
  refine ⟨?_, by decide, by decide, by decide, by decide⟩
  obtain ⟨h1, h2, h3, h4⟩ := h
  simp only [TimeUnitDuration.Duration, wrapInt64, Second]
  omega

theorem duration_exact_witness :
    TimeUnitDuration.Duration ⟨1, 2, 30, 15⟩ =
        (15 + 30 * 60 + 2 * 3600 + 1 * 86400) * 1000000000 ∧
      TimeUnitDuration.Duration ⟨1, 0, 0, 0⟩ = 86400000000000 ∧
      TimeUnitDuration.Duration ⟨0, 1, 0, 0⟩ = 3600000000000 ∧
      TimeUnitDuration.Duration ⟨0, 0, 1, 0⟩ = 60000000000 ∧
      TimeUnitDuration.Duration ⟨1, 2, 30, 15⟩ = 95415000000000 :=
  duration_exact ⟨1, 2, 30, 15⟩ (by decide) (by decide)

/-! The JSON bridge -/

theorem isDigit_cases (c : Char) (h : isDigit c = true) : ∃ n, n < 10 ∧ c = digitChar n := by
  have e : Char.ofNat c.toNat = c := Char.ofNat_toNat c
  simp only [isDigit, Bool.and_eq_true, decide_eq_true_eq] at h
  obtain ⟨h1, h2⟩ := h
  generalize c.toNat = k at e h1 h2
  subst e
  refine ⟨k - 48, by omega, ?_⟩
  interval_cases k <;> rfl

/-- Facts about the characters `String` can write, checked one character at a time. -/
theorem plain_char_facts (c : Char) (h : isPlain c = true) :
    jsonEscape c = [c] ∧ c ≠ dquote ∧ c ≠ bslash ∧ ¬ c.toNat < 32 := by
  simp only [isPlain, Bool.or_eq_true] at h
  rcases h with h | h
  · obtain ⟨n, hn, rfl⟩ := isDigit_cases c h
    interval_cases n <;> decide
  · rcases (isUnitLetter_iff c).mp h with rfl | rfl | rfl | rfl <;> decide

theorem jsonEscape_plain (c : Char) (h : isPlain c = true) : jsonEscape c = [c] :=
  (plain_char_facts c h).1

theorem flatMap_jsonEscape (s : List Char) (h : ∀ c ∈ s, isPlain c = true) :
    s.flatMap jsonEscape = s := by
  induction s with
  | nil => rfl
  | cons c r ih =>
    rw [List.flatMap_cons, jsonEscape_plain c (h c (List.mem_cons_self _ _)),
      ih (fun x hx => h x (List.mem_cons_of_mem _ hx))]
    rfl

theorem unquoteChars_cons_plain (c : Char) (r : List Char) (h : isPlain c = true) :
    unquoteChars 0 (c :: r) = (unquoteChars 0 r).map (fun p => (c :: p.1, p.2)) := by
  obtain ⟨-, h1, h2, h3⟩ := plain_char_facts c h
  rw [unquoteChars]
  simp only [h1, h2, h3, if_false]

theorem unquoteChars_plain (after : List Char) :
    ∀ s : List Char, (∀ c ∈ s, isPlain c = true) →
      unquoteChars 0 (s ++ dquote :: after) = some (s, after) := by
  intro s
  induction s with
  | nil =>
    intro _
    rw [List.nil_append, unquoteChars]
    simp only [if_true]
  | cons c r ih =>
    intro h
    rw [List.cons_append, unquoteChars_cons_plain c _ (h c (List.mem_cons_self _ _)),
      ih (fun x hx => h x (List.mem_cons_of_mem _ hx))]
    rfl

/-- Decoding the JSON string literal of a text of plain characters gives the text back. -/
theorem jsonUnmarshalString_quoted (s : List Char) (h : ∀ c ∈ s, isPlain c = true) :
    jsonUnmarshalString (dquote :: (s ++ [dquote])) = .ok s := by
  have hq : isJsonSpace dquote = false := by decide
  unfold jsonUnmarshalString
  rw [List.dropWhile_cons_of_neg (by simp [hq])]
  simp [unquoteChars_plain [] s h]

theorem string_plain (t : TimeUnitDuration) (h : t.NonNeg) :
    ∀ c ∈ t.String, isPlain c = true := by
  intro c hc
  have := inGrammar_chars t.String (string_inGrammar t h) c hc
  simpa [isPlain] using this

theorem marshal_string (t : TimeUnitDuration) (h : t.NonNeg) :
    t.MarshalJSON = (dquote :: (t.String ++ [dquote]), none) := by
  unfold TimeUnitDuration.MarshalJSON jsonMarshalString
  rw [flatMap_jsonEscape _ (string_plain t h)]

/-- C6: for non-negative fields `MarshalJSON` returns no error and the bytes of
one JSON string: a double quote, the text of `String` unchanged (it holds only
digits and the letters d, h, m, s), and a double quote. -/
theorem marshalJSON_quotes_string (t : TimeUnitDuration) (h : t.NonNeg) :
    t.MarshalJSON = (dquote :: (t.String ++ [dquote]), none) ∧
      ∀ c ∈ t.String, isDigit c = true ∨ isUnitLetter c = true := by
  refine ⟨marshal_string t h, ?_⟩
  intro c hc
  simpa [isPlain] using string_plain t h c hc

theorem marshalJSON_quotes_string_witness :
    sample.MarshalJSON =
        ([dquote, '2', 'd', '3', 'h', '4', '5', 'm', '3', '0', 's', dquote], none) ∧
      ∀ c ∈ sample.String, isDigit c = true ∨ isUnitLetter c = true :=
  marshalJSON_quotes_string sample (by decide)

/-- C7: for non-negative fields (within the range of `int`) `UnmarshalJSON`
applied to the bytes of `MarshalJSON` succeeds and sets the receiver, whatever
it held, to the same four fields. -/
theorem unmarshal_marshal (t r : TimeUnitDuration) (h : t.NonNeg) (hr : t.InRange) :
    r.UnmarshalJSON t.MarshalJSON.1 = (t, none) := by
  rw [marshal_string t h]
  unfold TimeUnitDuration.UnmarshalJSON
  simp only
  rw [jsonUnmarshalString_quoted _ (string_plain t h)]
  simp only [parse_string t h hr]

theorem unmarshal_marshal_witness :
    TimeUnitDuration.UnmarshalJSON ⟨9, 9, 9, 9⟩ (TimeUnitDuration.MarshalJSON ⟨0, 0, 5, 0⟩).1 =
      (⟨0, 0, 5, 0⟩, none) :=
  unmarshal_marshal ⟨0, 0, 5, 0⟩ ⟨9, 9, 9, 9⟩ (by decide) (by decide)

/-- C8: when the bytes are a JSON string literal that decodes to `p`,
`UnmarshalJSON` succeeds exactly when `ParseTimeUnitDuration p` does; on success
the receiver becomes the parsed value, on failure the error returned is the
error of `ParseTimeUnitDuration p`. -/
theorem unmarshal_follows_parse (r : TimeUnitDuration) (data p : List Char)
    (h : jsonUnmarshalString data = .ok p) :
    ((r.UnmarshalJSON data).2 = none ↔ (ParseTimeUnitDuration p).2 = none) ∧
      ((ParseTimeUnitDuration p).2 = none →
        r.UnmarshalJSON data = ((ParseTimeUnitDuration p).1, none)) ∧
      (∀ e, (ParseTimeUnitDuration p).2 = some e → (r.UnmarshalJSON data).2 = some e) := by
  unfold TimeUnitDuration.UnmarshalJSON
  rw [h]
  dsimp only
  generalize ParseTimeUnitDuration p = res
  obtain ⟨v, _ | e⟩ := res
  · simp
  · simp

theorem unmarshal_follows_parse_witness :
    ((TimeUnitDuration.UnmarshalJSON ⟨0, 0, 0, 0⟩
          [dquote, '2', 'd', '3', 'h', '4', '5', 'm', '3', '0', 's', dquote]).2 = none ↔
        (ParseTimeUnitDuration ['2', 'd', '3', 'h', '4', '5', 'm', '3', '0', 's']).2 = none) ∧
      ((ParseTimeUnitDuration ['2', 'd', '3', 'h', '4', '5', 'm', '3', '0', 's']).2 = none →
        TimeUnitDuration.UnmarshalJSON ⟨0, 0, 0, 0⟩
            [dquote, '2', 'd', '3', 'h', '4', '5', 'm', '3', '0', 's', dquote] =
          ((ParseTimeUnitDuration ['2', 'd', '3', 'h', '4', '5', 'm', '3', '0', 's']).1, none)) ∧
      (∀ e, (ParseTimeUnitDuration ['2', 'd', '3', 'h', '4', '5', 'm', '3', '0', 's']).2 = some e →
        (TimeUnitDuration.UnmarshalJSON ⟨0, 0, 0, 0⟩
          [dquote, '2', 'd', '3', 'h', '4', '5', 'm', '3', '0', 's', dquote]).2 = some e) :=
  unmarshal_follows_parse ⟨0, 0, 0, 0⟩
    [dquote, '2', 'd', '3', 'h', '4', '5', 'm', '3', '0', 's', dquote]
    ['2', 'd', '3', 'h', '4', '5', 'm', '3', '0', 's'] rfl

/-! Invariant of the parsed value -/

theorem atoiPart_cases_digits (o : Option (List Char)) (ho : ValidPart o) :
    (0 ≤ partValue o ∧ partValue o ≤ maxInt ∧ atoiPart o = (partValue o, none)) ∨
      (∃ ds, o = some ds ∧ IsDigits ds ∧ maxInt < ((decimalValue ds : Nat) : Int) ∧
        atoiPart o = (maxInt, some (.numError "Atoi" ds .errRange))) := by
  cases o with
  | none => left; exact ⟨by decide, by decide, rfl⟩
  | some ds =>
    simp only [atoiPart, partValue, atoi_digits ds ho]
    by_cases hb : maxInt < (decimalValue ds : Nat)
    · right; exact ⟨ds, rfl, ho, hb, by simp [hb]⟩
    · left; exact ⟨Int.ofNat_nonneg _, not_lt.mp hb, by simp [hb]⟩

/-- What `ParseTimeUnitDuration` returns on a text of the grammar: either no
error and the values of the components, or the range error of the first
component that does not fit an `int`, with non-negative fields either way. -/
theorem convertParts_cases (d h m s : Option (List Char))
    (vd : ValidPart d) (vh : ValidPart h) (vm : ValidPart m) (vs : ValidPart s) :
    (convertParts d h m s).1.NonNeg ∧
      ((convertParts d h m s).2 = none ∨
        ∃ ds, IsDigits ds ∧ maxInt < ((decimalValue ds : Nat) : Int) ∧
          (convertParts d h m s).2 = some (.numError "Atoi" ds .errRange)) := by
  unfold convertParts
  rcases atoiPart_cases_digits d vd with ⟨nd, -, ed⟩ | ⟨ds, -, hds, hov, ed⟩
  · rcases atoiPart_cases_digits h vh with ⟨nh, -, eh⟩ | ⟨ds, -, hds, hov, eh⟩
    · rcases atoiPart_cases_digits m vm with ⟨nm, -, em⟩ | ⟨ds, -, hds, hov, em⟩
      · rcases atoiPart_cases_digits s vs with ⟨ns, -, es⟩ | ⟨ds, -, hds, hov, es⟩
        · rw [ed, eh, em, es]
          exact ⟨⟨nd, nh, nm, ns⟩, Or.inl rfl⟩
        · rw [ed, eh, em, es]
          exact ⟨⟨nd, nh, nm, le_refl _⟩, Or.inr ⟨ds, hds, hov, rfl⟩⟩
      · rw [ed, eh, em]
        exact ⟨⟨nd, nh, le_refl _, le_refl _⟩, Or.inr ⟨ds, hds, hov, rfl⟩⟩
    · rw [ed, eh]
      exact ⟨⟨nd, le_refl _, le_refl _, le_refl _⟩, Or.inr ⟨ds, hds, hov, rfl⟩⟩
  · rw [ed]
    exact ⟨⟨le_refl _, le_refl _, le_refl _, le_refl _⟩, Or.inr ⟨ds, hds, hov, rfl⟩⟩

/-- C14: every value `ParseTimeUnitDuration` returns, with or without an error,
has days, hours, minutes and seconds greater than or equal to 0. -/
theorem parse_fields_nonneg (input : List Char) :
    0 ≤ (ParseTimeUnitDuration input).1.days ∧ 0 ≤ (ParseTimeUnitDuration input).1.hours ∧
      0 ≤ (ParseTimeUnitDuration input).1.minutes ∧
      0 ≤ (ParseTimeUnitDuration input).1.seconds := by
  by_cases hg : InGrammar input
  · obtain ⟨d, h, m, s, vd, vh, vm, vs, rfl⟩ := hg
    rw [parse_durationText d h m s vd vh vm vs]
    exact (convertParts_cases d h m s vd vh vm vs).1
  · rw [parse_not_inGrammar input hg]
    decide

/-! Kinds of error -/

theorem atoiPart_overflowDigits (o : Option (List Char)) (ho : ValidPart o) :
    atoiPart o =
      match overflowDigits o with
      | some ds => (maxInt, some (.numError "Atoi" ds .errRange))
      | none => (partValue o, none) := by
  cases o with
  | none => rfl
  | some ds =>
    simp only [atoiPart, overflowDigits, partValue, atoi_digits ds ho]
    split <;> rfl

theorem overflowDigits_some (o : Option (List Char)) (ho : ValidPart o) (ds : List Char)
    (h : overflowDigits o = some ds) :
    o = some ds ∧ IsDigits ds ∧ maxInt < ((decimalValue ds : Nat) : Int) := by
  cases o with
  | none => exact Option.noConfusion h
  | some ds0 =>
    simp only [overflowDigits] at h
    split at h
    · rename_i hov
      have e : ds0 = ds := Option.some.inj h
      subst e
      exact ⟨rfl, ho, hov⟩
    · exact Option.noConfusion h

/-- The error `ParseTimeUnitDuration` ends with on a text of the grammar: none when
every component fits an `int`, otherwise the range error of `strconv.Atoi` that
carries the digits of the first component that does not fit. -/
theorem convertParts_error (d h m s : Option (List Char))
    (vd : ValidPart d) (vh : ValidPart h) (vm : ValidPart m) (vs : ValidPart s) :
    (convertParts d h m s).2 =
      (firstOverflow d h m s).map (fun ds => GoError.numError "Atoi" ds .errRange) := by
  unfold convertParts firstOverflow
  rw [atoiPart_overflowDigits d vd, atoiPart_overflowDigits h vh, atoiPart_overflowDigits m vm,
    atoiPart_overflowDigits s vs]
  cases overflowDigits d <;> cases overflowDigits h <;> cases overflowDigits m <;>
    cases overflowDigits s <;> rfl

theorem firstOverflow_some (d h m s : Option (List Char))
    (vd : ValidPart d) (vh : ValidPart h) (vm : ValidPart m) (vs : ValidPart s) (ds : List Char)
    (hf : firstOverflow d h m s = some ds) :
    (d = some ds ∨ h = some ds ∨ m = some ds ∨ s = some ds) ∧ IsDigits ds ∧
      maxInt < ((decimalValue ds : Nat) : Int) := by
  unfold firstOverflow at hf
  cases h1 : overflowDigits d with
  | some x =>
    rw [h1] at hf
    have e : x = ds := Option.some.inj hf
    subst e
    obtain ⟨a, b, c⟩ := overflowDigits_some d vd x h1
    exact ⟨Or.inl a, b, c⟩
  | none =>
    rw [h1] at hf
    cases h2 : overflowDigits h with
    | some x =>
      rw [h2] at hf
      have e : x = ds := Option.some.inj hf
      subst e
      obtain ⟨a, b, c⟩ := overflowDigits_some h vh x h2
      exact ⟨Or.inr (Or.inl a), b, c⟩
    | none =>
      rw [h2] at hf
      cases h3 : overflowDigits m with
      | some x =>
        rw [h3] at hf
        have e : x = ds := Option.some.inj hf
        subst e
        obtain ⟨a, b, c⟩ := overflowDigits_some m vm x h3
        exact ⟨Or.inr (Or.inr (Or.inl a)), b, c⟩
      | none =>
        rw [h3] at hf
        obtain ⟨a, b, c⟩ := overflowDigits_some s vs ds hf
        exact ⟨Or.inr (Or.inr (Or.inr a)), b, c⟩

/-- C12 (as amended): an error of `ParseTimeUnitDuration` is of one of two
kinds. For a text outside the grammar it is the format error that names
NdNhNmNs. For a text of the grammar, with components d, h, m, s, it is the range
error of `strconv.Atoi` carrying the offending digits: the digit run of the first
component, in the order days, hours, minutes, seconds, whose value exceeds the
largest `int`; this error is not the format error. -/
theorem parse_error_kinds (input : List Char) (e : GoError)
    (h : (ParseTimeUnitDuration input).2 = some e) :
    (¬ InGrammar input ∧ e = errInvalidFormat) ∨
      (∃ d hh m s, ValidPart d ∧ ValidPart hh ∧ ValidPart m ∧ ValidPart s ∧
        input = durationText d hh m s ∧
        ∃ ds, firstOverflow d hh m s = some ds ∧
          (d = some ds ∨ hh = some ds ∨ m = some ds ∨ s = some ds) ∧
          IsDigits ds ∧ maxInt < ((decimalValue ds : Nat) : Int) ∧
          e = .numError "Atoi" ds .errRange ∧ e ≠ errInvalidFormat) := by
  by_cases hg : InGrammar input
  · right
    obtain ⟨d, hh, m, s, vd, vh, vm, vs, rfl⟩ := hg
    refine ⟨d, hh, m, s, vd, vh, vm, vs, rfl, ?_⟩
    rw [parse_durationText d hh m s vd vh vm vs, convertParts_error d hh m s vd vh vm vs] at h
    cases hf : firstOverflow d hh m s with
    | none => rw [hf] at h; exact Option.noConfusion h
    | some ds =>
      rw [hf] at h
      have he : e = GoError.numError "Atoi" ds .errRange := (Option.some.inj h).symm
      obtain ⟨a, b, c⟩ := firstOverflow_some d hh m s vd vh vm vs ds hf
      refine ⟨ds, rfl, a, b, c, he, ?_⟩
      rw [he]
      intro hc
      exact GoError.noConfusion hc
  · left
    rw [parse_not_inGrammar input hg] at h
    exact ⟨hg, (Option.some.inj h).symm⟩

theorem parse_error_kinds_witness :
    (¬ InGrammar ['7', 'd', '9', '2', '2', '3', '3', '7', '2', '0', '3', '6', '8', '5', '4', '7',
          '7', '5', '8', '0', '8', 'h'] ∧
        GoError.numError "Atoi"
            ['9', '2', '2', '3', '3', '7', '2', '0', '3', '6', '8', '5', '4', '7', '7', '5',
              '8', '0', '8'] .errRange = errInvalidFormat) ∨
      (∃ d hh m s, ValidPart d ∧ ValidPart hh ∧ ValidPart m ∧ ValidPart s ∧
        ['7', 'd', '9', '2', '2', '3', '3', '7', '2', '0', '3', '6', '8', '5', '4', '7',
          '7', '5', '8', '0', '8', 'h'] = durationText d hh m s ∧
        ∃ ds, firstOverflow d hh m s = some ds ∧
          (d = some ds ∨ hh = some ds ∨ m = some ds ∨ s = some ds) ∧
          IsDigits ds ∧ maxInt < ((decimalValue ds : Nat) : Int) ∧
          GoError.numError "Atoi"
              ['9', '2', '2', '3', '3', '7', '2', '0', '3', '6', '8', '5', '4', '7', '7', '5',
                '8', '0', '8'] .errRange =
            .numError "Atoi" ds .errRange ∧
          GoError.numError "Atoi"
              ['9', '2', '2', '3', '3', '7', '2', '0', '3', '6', '8', '5', '4', '7', '7', '5',
                '8', '0', '8'] .errRange ≠ errInvalidFormat) :=
  parse_error_kinds _ _ (by decide)

/-- C12 (the claim fails): the text 9223372036854775808s, which matches the
grammar, is refused with the range error of `strconv.Atoi`, while the text 5,
which does not match, is refused with the format error; the two errors differ. -/
theorem parse_overflow_error_differs :
    (ParseTimeUnitDuration
        ['9', '2', '2', '3', '3', '7', '2', '0', '3', '6', '8', '5', '4', '7', '7', '5', '8',
          '0', '8', 's']).2 =
      some (.numError "Atoi"
        ['9', '2', '2', '3', '3', '7', '2', '0', '3', '6', '8', '5', '4', '7', '7', '5', '8',
          '0', '8'] .errRange) ∧
    (ParseTimeUnitDuration ['5']).2 = some errInvalidFormat ∧
    (ParseTimeUnitDuration
        ['9', '2', '2', '3', '3', '7', '2', '0', '3', '6', '8', '5', '4', '7', '7', '5', '8',
          '0', '8', 's']).2 ≠ (ParseTimeUnitDuration ['5']).2 := by
  decide

/-! Wrap-around of the conversion -/

theorem wrapInt64_of_inRange (x : Int) (h1 : -(maxInt + 1) ≤ x) (h2 : x ≤ maxInt) :
    wrapInt64 x = x := by
  unfold wrapInt64
  unfold maxInt at h1 h2
  omega

/-- The result of `Duration` is the total in nanoseconds reduced modulo 2^64 into
the 64-bit signed range. -/
theorem duration_eq_wrap (t : TimeUnitDuration) :
    t.Duration = wrapInt64 (t.totalSeconds * Second) := by
  simp only [TimeUnitDuration.Duration, TimeUnitDuration.totalSeconds, Second, wrapInt64]
  omega

/-- C11 (as amended): `Duration` never fails. It always returns a value, the total
seconds + minutes*60 + hours*3600 + days*86400 in nanoseconds reduced modulo
2^64 into the 64-bit signed range: the exact number of nanoseconds whenever the
specified conversion does not overflow, a wrapped-around number otherwise. -/
theorem duration_total_wraps (t : TimeUnitDuration) :
    t.Duration = wrapInt64 (t.totalSeconds * Second) ∧
      -(maxInt + 1) ≤ t.Duration ∧ t.Duration ≤ maxInt ∧
      (∀ v, durationOrFail t = some v → t.Duration = v) := by
  refine ⟨duration_eq_wrap t, ?_, ?_, ?_⟩
  · rw [duration_eq_wrap]; unfold wrapInt64 maxInt; omega
  · rw [duration_eq_wrap]; unfold wrapInt64 maxInt; omega
  · intro v hv
    unfold durationOrFail at hv
    split at hv
    · rename_i hr
      rw [duration_eq_wrap, wrapInt64_of_inRange _ hr.2.2.1 hr.2.2.2]
      exact Option.some.inj hv
    · exact Option.noConfusion hv

/-- C11 (the claim fails): the value parsed from 9223372036854775807d has a
total of seconds far above 2^63 - 1, so the specified conversion fails, yet
`Duration` returns a number: -86400 seconds in nanoseconds. -/
theorem duration_wraps_silently :
    (ParseTimeUnitDuration
        ['9', '2', '2', '3', '3', '7', '2', '0', '3', '6', '8', '5', '4', '7', '7', '5', '8',
          '0', '7', 'd']) = (⟨9223372036854775807, 0, 0, 0⟩, none) ∧
      maxInt < TimeUnitDuration.totalSeconds ⟨9223372036854775807, 0, 0, 0⟩ ∧
      durationOrFail ⟨9223372036854775807, 0, 0, 0⟩ = none ∧
      TimeUnitDuration.Duration ⟨9223372036854775807, 0, 0, 0⟩ = -86400 * Second := by
  decide

/-! Receiver of `UnmarshalJSON` -/

/-- C16: when `UnmarshalJSON` returns an error, because the bytes are not a JSON
string or because `ParseTimeUnitDuration` refuses the decoded string, the
receiver is as it was before the call. -/
theorem unmarshal_error_keeps_receiver (t : TimeUnitDuration) (data : List Char) (e : GoError)
    (h : (t.UnmarshalJSON data).2 = some e) :
    (t.UnmarshalJSON data).1 = t ∧
      ((∃ p, jsonUnmarshalString data = .ok p ∧ (ParseTimeUnitDuration p).2 = some e) ∨
        jsonUnmarshalString data = .error e) := by
  unfold TimeUnitDuration.UnmarshalJSON at h ⊢
  cases hj : jsonUnmarshalString data with
  | error err =>
    rw [hj] at h
    simp only at h
    exact ⟨rfl, Or.inr (by rw [Option.some.inj h])⟩
  | ok p =>
    rw [hj] at h
    simp only at h ⊢
    generalize hp : ParseTimeUnitDuration p = res at h
    obtain ⟨v, _ | err⟩ := res
    · exact Option.noConfusion h
    · simp only at h
      exact ⟨rfl, Or.inl ⟨p, rfl, by rw [hp]; exact h⟩⟩

theorem unmarshal_error_keeps_receiver_witness :
    (TimeUnitDuration.UnmarshalJSON ⟨1, 2, 3, 4⟩ [dquote, '3', 'h', '2', 'd', dquote]).1 =
        ⟨1, 2, 3, 4⟩ ∧
      ((∃ p, jsonUnmarshalString [dquote, '3', 'h', '2', 'd', dquote] = .ok p ∧
          (ParseTimeUnitDuration p).2 = some errInvalidFormat) ∨
        jsonUnmarshalString [dquote, '3', 'h', '2', 'd', dquote] = .error errInvalidFormat) :=
  unmarshal_error_keeps_receiver ⟨1, 2, 3, 4⟩ [dquote, '3', 'h', '2', 'd', dquote]
    errInvalidFormat (by decide)

/-! The final fallback of `String` -/

theorem string_eq_builder (t : TimeUnitDuration) :
    t.String = if t.builder.length = 0 then t.builder ++ ['0', 's'] else t.builder := rfl

/-- The fallback is taken exactly when no field is positive and days, hours and
minutes are not all 0. -/
theorem fallbackTaken_iff (t : TimeUnitDuration) :
    t.fallbackTaken ↔
      t.days ≤ 0 ∧ t.hours ≤ 0 ∧ t.minutes ≤ 0 ∧ t.seconds ≤ 0 ∧
        ¬ (t.days = 0 ∧ t.hours = 0 ∧ t.minutes = 0) := by
  unfold TimeUnitDuration.fallbackTaken TimeUnitDuration.builder
  simp only [Sprintf]
  by_cases p1 : 0 < t.days <;> by_cases p2 : 0 < t.hours <;> by_cases p3 : 0 < t.minutes <;>
    by_cases p4 : 0 < t.seconds <;>
    by_cases p5 : t.days = 0 ∧ t.hours = 0 ∧ t.minutes = 0
  all_goals simp [p1, p2, p3, p4, p5]
  all_goals omega

/-- C17: the final fallback of `String`, which writes 0s into an empty builder,
is not taken when all four fields are non-negative; when it is taken some field
is negative, as for the value -1, 0, 0, 0, whose text is 0s. -/
theorem string_fallback (t : TimeUnitDuration) :
    (t.String = if t.builder.length = 0 then t.builder ++ ['0', 's'] else t.builder) ∧
      (t.NonNeg → ¬ t.fallbackTaken) ∧
      (t.fallbackTaken → t.days < 0 ∨ t.hours < 0 ∨ t.minutes < 0 ∨ t.seconds < 0) ∧
      TimeUnitDuration.fallbackTaken ⟨-1, 0, 0, 0⟩ ∧
      TimeUnitDuration.String ⟨-1, 0, 0, 0⟩ = ['0', 's'] := by
  refine ⟨rfl, ?_, ?_, by decide, by decide⟩
  · intro hn hf
    obtain ⟨h1, h2, h3, h4⟩ := hn
    have := (fallbackTaken_iff t).mp hf
    omega
  · intro hf
    have := (fallbackTaken_iff t).mp hf
    omega

/-! Formatting after parsing -/

theorem digitChar_of_isDigit (c : Char) (hc : isDigit c = true) :
    digitChar (c.toNat - 48) = c ∧ c.toNat - 48 < 10 ∧ (c ≠ '0' → 0 < c.toNat - 48) := by
  obtain ⟨n, hn, rfl⟩ := isDigit_cases c hc
  interval_cases n <;> decide

/-- The decimal text of the value of a digit run without leading zero is the run itself. -/
theorem formatNat_decimalValue (ds : List Char) (hd : IsDigits ds) (hz : ds.head? ≠ some '0') :
    formatNat (decimalValue ds) = ds ∧ 0 < decimalValue ds := by
  induction ds using List.reverseRecOn with
  | nil => exact absurd rfl hd.1
  | append_singleton a c ih =>
    have hc : isDigit c = true := hd.2 c (by simp)
    obtain ⟨e1, e2, e3⟩ := digitChar_of_isDigit c hc
    cases a with
    | nil =>
      have hne : c ≠ '0' := by
        intro e
        exact hz (by simp [e])
      have hv : decimalValue ([] ++ [c]) = c.toNat - 48 := by simp [decimalValue]
      rw [hv, formatNat_lt _ e2, e1]
      exact ⟨rfl, e3 hne⟩
    | cons x a1 =>
      have hda : IsDigits (x :: a1) := ⟨by simp, fun y hy => hd.2 y (List.mem_append_left _ hy)⟩
      have hza : (x :: a1).head? ≠ some '0' := by simpa using hz
      obtain ⟨i1, i2⟩ := ih hda hza
      rw [decimalValue_append]
      have hge : 10 ≤ decimalValue (x :: a1) * 10 + (c.toNat - 48) := by omega
      rw [formatNat_ge _ hge]
      have q1 : (decimalValue (x :: a1) * 10 + (c.toNat - 48)) / 10 = decimalValue (x :: a1) := by
        omega
      have q2 : (decimalValue (x :: a1) * 10 + (c.toNat - 48)) % 10 = c.toNat - 48 := by omega
      rw [q1, q2, i1, e1]
      exact ⟨rfl, by omega⟩

theorem submatchOf_inj (u : Char) (o o1 : Option (List Char)) (h : submatchOf u o = submatchOf u o1) :
    o = o1 := by
  cases o with
  | none =>
    cases o1 with
    | none => rfl
    | some b => simp [submatchOf] at h
  | some a =>
    cases o1 with
    | none => simp [submatchOf] at h
    | some b =>
      have e : a = b := by simpa [submatchOf] using h
      rw [e]

/-- A text of the grammar has only one decomposition into components. -/
theorem durationText_inj (d h m s d1 h1 m1 s1 : Option (List Char))
    (vd : ValidPart d) (vh : ValidPart h) (vm : ValidPart m) (vs : ValidPart s)
    (wd : ValidPart d1) (wh : ValidPart h1) (wm : ValidPart m1) (ws : ValidPart s1)
    (e : durationText d h m s = durationText d1 h1 m1 s1) :
    d = d1 ∧ h = h1 ∧ m = m1 ∧ s = s1 := by
  obtain ⟨a1, a2, a3, a4⟩ := findStringSubmatch_durationText d h m s vd vh vm vs
  obtain ⟨b1, b2, b3, b4⟩ := findStringSubmatch_durationText d1 h1 m1 s1 wd wh wm ws
  rw [e] at a1 a2 a3 a4
  exact ⟨submatchOf_inj _ _ _ (a1.symm.trans b1), submatchOf_inj _ _ _ (a2.symm.trans b2),
    submatchOf_inj _ _ _ (a3.symm.trans b3), submatchOf_inj _ _ _ (a4.symm.trans b4)⟩

theorem partValue_nonneg (o : Option (List Char)) : 0 ≤ partValue o := by
  cases o with
  | none => exact le_refl _
  | some ds => exact Int.ofNat_nonneg _

theorem partValue_pos (o : Option (List Char)) (hp : PositivePart o) (hs : o ≠ none) :
    0 < partValue o := by
  cases o with
  | none => exact absurd rfl hs
  | some ds => simpa [partValue] using hp.1

/-- A component is written back unchanged exactly when it is absent or a positive
number without leading zeros, or when it is a forced 0. -/
theorem numPart_eq_iff (o : Option (List Char)) (ho : ValidPart o) (force : Bool) :
    numPart (partValue o) force = o ↔
      (PositivePart o ∧ (o = none → force = false)) ∨ (force = true ∧ o = some ['0']) := by
  cases o with
  | none =>
    cases force <;> simp [numPart, partValue, PositivePart]
  | some ds =>
    have hv : partValue (some ds) = ((decimalValue ds : Nat) : Int) := rfl
    constructor
    · intro h
      unfold numPart at h
      split at h
      · rename_i hc
        have e : formatNat (decimalValue ds) = ds := by
          simpa [hv] using h
        obtain ⟨-, g2, g3⟩ := formatNat_isDecimalOf (decimalValue ds)
        rw [e] at g3
        by_cases hz : ds.head? = some '0'
        · right
          have e0 : ds = ['0'] := g3 hz
          subst e0
          rcases hc with hc | hc
          · exact absurd hc (by decide)
          · exact ⟨hc, rfl⟩
        · left
          have e4 := (formatNat_decimalValue ds ho hz).2
          exact ⟨⟨e4, hz⟩, fun hn => Option.noConfusion hn⟩
      · exact Option.noConfusion h
    · rintro (⟨⟨p1, p2⟩, -⟩ | ⟨hf, e0⟩)
      · have e := (formatNat_decimalValue ds ho p2).1
        have hne : decimalValue ds ≠ 0 := by omega
        simp [numPart, hv, e, hne]
      · have e1 : ds = ['0'] := Option.some.inj e0
        subst e1 hf
        decide

theorem convertParts_none (d h m s : Option (List Char))
    (vd : ValidPart d) (vh : ValidPart h) (vm : ValidPart m) (vs : ValidPart s)
    (hn : (convertParts d h m s).2 = none) :
    convertParts d h m s = (⟨partValue d, partValue h, partValue m, partValue s⟩, none) := by
  unfold convertParts at hn ⊢
  rcases atoiPart_cases_digits d vd with ⟨-, -, ed⟩ | ⟨ds, -, -, -, ed⟩
  · rcases atoiPart_cases_digits h vh with ⟨-, -, eh⟩ | ⟨ds, -, -, -, eh⟩
    · rcases atoiPart_cases_digits m vm with ⟨-, -, em⟩ | ⟨ds, -, -, -, em⟩
      · rcases atoiPart_cases_digits s vs with ⟨-, -, es⟩ | ⟨ds, -, -, -, es⟩
        · rw [ed, eh, em, es]
        · rw [ed, eh, em, es] at hn; exact Option.noConfusion hn
      · rw [ed, eh, em] at hn; exact Option.noConfusion hn
    · rw [ed, eh] at hn; exact Option.noConfusion hn
  · rw [ed] at hn; exact Option.noConfusion hn

/-- The text `String` makes of the value parsed from an accepted text, in components. -/
theorem string_parse_durationText (d h m s : Option (List Char))
    (vd : ValidPart d) (vh : ValidPart h) (vm : ValidPart m) (vs : ValidPart s)
    (hacc : (ParseTimeUnitDuration (durationText d h m s)).2 = none) :
    (ParseTimeUnitDuration (durationText d h m s)).1.String =
      durationText (numPart (partValue d) false) (numPart (partValue h) false)
        (numPart (partValue m) false)
        (numPart (partValue s) (decide (partValue d = 0 ∧ partValue h = 0 ∧ partValue m = 0))) := by
  rw [parse_durationText d h m s vd vh vm vs] at hacc ⊢
  rw [convertParts_none d h m s vd vh vm vs hacc]
  exact string_eq_durationText _
    ⟨partValue_nonneg d, partValue_nonneg h, partValue_nonneg m, partValue_nonneg s⟩

theorem component_ne_nil (u : Char) (o : Option (List Char)) (h : o ≠ none) :
    component u o ≠ [] := by
  cases o with
  | none => exact absurd rfl h
  | some ds => simp [component]

theorem partValue_eq_zero_of_none (o : Option (List Char)) (h : o = none) : partValue o = 0 := by
  subst h; rfl

/-- C13: formatting the value parsed from an accepted text gives the text back
exactly when the text is canonical, that is 0s, or non-empty with every component
present a positive number without leading zeros. In general it gives the text in
which a component is kept, as the decimal text of its value, when that value is
positive, and the seconds also when days, hours and minutes are all 0: zero
components are dropped, leading zeros removed, and the empty text becomes 0s. -/
theorem format_parse_canonical (d h m s : Option (List Char))
    (vd : ValidPart d) (vh : ValidPart h) (vm : ValidPart m) (vs : ValidPart s)
    (hacc : (ParseTimeUnitDuration (durationText d h m s)).2 = none) :
    ((ParseTimeUnitDuration (durationText d h m s)).1.String = durationText d h m s ↔
        Canonical d h m s) ∧
      (ParseTimeUnitDuration (durationText d h m s)).1.String =
        durationText (numPart (partValue d) false) (numPart (partValue h) false)
          (numPart (partValue m) false)
          (numPart (partValue s)
            (decide (partValue d = 0 ∧ partValue h = 0 ∧ partValue m = 0))) ∧
      (ParseTimeUnitDuration ['5', 'm', '0', 's']).1.String = ['5', 'm'] ∧
      (ParseTimeUnitDuration []).1.String = ['0', 's'] := by
  have hs := string_parse_durationText d h m s vd vh vm vs hacc
  refine ⟨?_, hs, by decide, by decide⟩
  rw [hs]
  constructor
  · intro e
    obtain ⟨e1, e2, e3, e4⟩ := durationText_inj _ _ _ _ d h m s (validPart_numPart _ _)
      (validPart_numPart _ _) (validPart_numPart _ _) (validPart_numPart _ _) vd vh vm vs e
    have q1 := (numPart_eq_iff d vd false).mp e1
    have q2 := (numPart_eq_iff h vh false).mp e2
    have q3 := (numPart_eq_iff m vm false).mp e3
    have q4 := (numPart_eq_iff s vs _).mp e4
    simp only [Bool.false_eq_true, false_and, or_false, implies_true, and_true] at q1 q2 q3
    rcases q4 with ⟨p4, hf⟩ | ⟨hf, es⟩
    · right
      refine ⟨?_, q1, q2, q3, p4⟩
      intro hnil
      simp only [durationText, List.append_eq_nil] at hnil
      obtain ⟨n1, n2, n3, n4⟩ := hnil
      have sn : s = none := by
        by_contra hc; exact component_ne_nil _ _ hc n4
      have dn : d = none := by
        by_contra hc; exact component_ne_nil _ _ hc n1
      have hn : h = none := by
        by_contra hc; exact component_ne_nil _ _ hc n2
      have mn : m = none := by
        by_contra hc; exact component_ne_nil _ _ hc n3
      have := hf sn
      simp [partValue_eq_zero_of_none _ dn, partValue_eq_zero_of_none _ hn,
        partValue_eq_zero_of_none _ mn] at this
    · left
      simp only [decide_eq_true_eq] at hf
      obtain ⟨z1, z2, z3⟩ := hf
      have dn : d = none := by
        by_contra hc
        have := partValue_pos d q1 hc
        omega
      have hn : h = none := by
        by_contra hc
        have := partValue_pos h q2 hc
        omega
      have mn : m = none := by
        by_contra hc
        have := partValue_pos m q3 hc
        omega
      subst dn hn mn es
      rfl
  · rintro (e0 | ⟨hne, p1, p2, p3, p4⟩)
    · obtain ⟨rfl, rfl, rfl, rfl⟩ := durationText_inj d h m s none none none (some ['0'])
        vd vh vm vs trivial trivial trivial (by decide) e0
      decide
    · have e1 := (numPart_eq_iff d vd false).mpr (Or.inl ⟨p1, fun _ => rfl⟩)
      have e2 := (numPart_eq_iff h vh false).mpr (Or.inl ⟨p2, fun _ => rfl⟩)
      have e3 := (numPart_eq_iff m vm false).mpr (Or.inl ⟨p3, fun _ => rfl⟩)
      have e4 := (numPart_eq_iff s vs
        (decide (partValue d = 0 ∧ partValue h = 0 ∧ partValue m = 0))).mpr (Or.inl ⟨p4, by
          intro sn
          subst sn
          simp only [decide_eq_false_iff_not]
          rintro ⟨z1, z2, z3⟩
          have dn : d = none := by
            by_contra hc
            have := partValue_pos d p1 hc
            omega
          have hn : h = none := by
            by_contra hc
            have := partValue_pos h p2 hc
            omega
          have mn : m = none := by
            by_contra hc
            have := partValue_pos m p3 hc
            omega
          subst dn hn mn
          exact hne rfl⟩)
      rw [e1, e2, e3, e4]

theorem format_parse_canonical_witness :
    ((ParseTimeUnitDuration (durationText none none (some ['5']) (some ['0']))).1.String =
          durationText none none (some ['5']) (some ['0']) ↔
        Canonical none none (some ['5']) (some ['0'])) ∧
      (ParseTimeUnitDuration (durationText none none (some ['5']) (some ['0']))).1.String =
        durationText (numPart (partValue none) false) (numPart (partValue none) false)
          (numPart (partValue (some ['5'])) false)
          (numPart (partValue (some ['0']))
            (decide (partValue none = 0 ∧ partValue none = 0 ∧ partValue (some ['5']) = 0))) ∧
      (ParseTimeUnitDuration ['5', 'm', '0', 's']).1.String = ['5', 'm'] ∧
      (ParseTimeUnitDuration []).1.String = ['0', 's'] :=
  format_parse_canonical none none (some ['5']) (some ['0'])
    (by decide) (by decide) (by decide) (by decide) (by decide)

/-! The anchored pattern and the extraction searches -/

theorem seqPattern_blocked (u : Char) (hu : isDigit u = false) (ds rest : List Char)
    (hds : ∀ c ∈ ds, isDigit c = true) (pos : Nat) (caps : List (Nat × List Char)) :
    ∀ l : List (Nat × Char), (∀ p ∈ l, p.2 ≠ u ∧ isDigit p.2 = false) →
      step (seqPattern l) ⟨pos, ds ++ u :: rest, caps⟩ = [] := by
  intro l
  induction l with
  | nil =>
    intro _
    simp [seqPattern, step_endText]
  | cons p l ih =>
    intro h
    obtain ⟨h1, h2⟩ := h p (List.mem_cons_self _ _)
    have hd : digitsThen p.2 (ds ++ u :: rest) = none :=
      digitsThen_other p.2 u h2 hu (fun e => h1 e.symm) rest ds hds
    rw [seqPattern, step_cat, step_optUnit _ _ h2, hd]
    simp only [List.nil_append, List.flatMap_cons, List.flatMap_nil, List.append_nil]
    exact ih (fun q hq => h q (List.mem_cons_of_mem _ hq))

theorem digitsThen_seqText (u : Char) (hu : isDigit u = false) :
    ∀ l : List (Nat × Char × Option (List Char)),
      (∀ p ∈ l, p.2.1 ≠ u ∧ isDigit p.2.1 = false ∧ ValidPart p.2.2) →
      digitsThen u (seqText l) = none := by
  intro l
  induction l with
  | nil => intro _; rfl
  | cons p l ih =>
    intro h
    obtain ⟨h1, h2, h3⟩ := h p (List.mem_cons_self _ _)
    obtain ⟨i, v, o⟩ := p
    cases o with
    | none =>
      simpa [seqText, component] using ih (fun q hq => h q (List.mem_cons_of_mem _ hq))
    | some ds =>
      have := digitsThen_other u v hu h2 h1 (seqText l) ds h3.2
      simpa [seqText, component] using this

/-- On the text of a sequence of valid components of pairwise different units the
sequence pattern has exactly one match; it reaches the end of the text and its
groups are those of the components present. -/
theorem step_seqPattern :
    ∀ (l : List (Nat × Char × Option (List Char))),
      (∀ p ∈ l, isDigit p.2.1 = false ∧ ValidPart p.2.2) →
      l.Pairwise (fun a b => a.2.1 ≠ b.2.1) →
      ∀ (pos : Nat) (caps : List (Nat × List Char)),
        step (seqPattern (l.map (fun p => (p.1, p.2.1)))) ⟨pos, seqText l, caps⟩ =
          [⟨pos + (seqText l).length, [], seqCaps l caps⟩] := by
  intro l
  induction l with
  | nil =>
    intro _ _ pos caps
    simp [seqPattern, seqText, seqCaps, step_endText]
  | cons p l ih =>
    intro h hp pos caps
    obtain ⟨h2, h3⟩ := h p (List.mem_cons_self _ _)
    have hl := fun q hq => h q (List.mem_cons_of_mem p hq)
    obtain ⟨hne, hp'⟩ := List.pairwise_cons.mp hp
    obtain ⟨i, u, o⟩ := p
    simp only [List.map_cons, seqPattern]
    rw [step_cat]
    cases o with
    | none =>
      have hd : digitsThen u (seqText l) = none :=
        digitsThen_seqText u h2 l (fun q hq => ⟨fun e => hne q hq e.symm, hl q hq⟩)
      simp only [seqText, component, List.nil_append, seqCaps]
      rw [step_optUnit _ _ h2, hd]
      simp only [List.nil_append, List.flatMap_cons, List.flatMap_nil, List.append_nil]
      exact ih hl hp' pos caps
    | some ds =>
      have hd : digitsThen u (ds ++ u :: seqText l) = some (ds, seqText l) :=
        digitsThen_append u h2 (seqText l) ds h3
      have hb := seqPattern_blocked u h2 ds (seqText l) h3.2 pos caps
        (l.map (fun p => (p.1, p.2.1))) (by
          intro q hq
          obtain ⟨q0, hq0, rfl⟩ := List.mem_map.mp hq
          exact ⟨fun e => hne q0 hq0 e.symm, (hl q0 hq0).1⟩)
      have e : seqText ((i, u, some ds) :: l) = ds ++ u :: seqText l := by
        simp [seqText, component]
      rw [e, step_optUnit _ _ h2, hd]
      simp only [List.singleton_append, List.flatMap_cons, List.flatMap_nil, List.append_nil, hb,
        seqCaps]
      rw [ih hl hp']
      simp only [List.length_append, List.length_cons]
      congr 2
      omega

theorem findAt_of_step (re : Regex) (pos : Nat) (s : List Char) (t : Thread)
    (h : step re ⟨pos, s, []⟩ = [t]) : findAt re pos s = some (pos, t) := by
  cases s with
  | nil => simp [findAt, h]
  | cons c r => simp [findAt, h]

/-- The anchored match of a text of the grammar: it is the whole text, and the
groups that took part are those of the components present. -/
theorem findAt_durationPattern (d h m s : Option (List Char))
    (vd : ValidPart d) (vh : ValidPart h) (vm : ValidPart m) (vs : ValidPart s) :
    findAt durationPattern 0 (durationText d h m s) =
      some (0, ⟨(durationText d h m s).length, [],
        seqCaps [(1, 'd', d), (2, 'h', h), (3, 'm', m), (4, 's', s)] []⟩) := by
  apply findAt_of_step
  have hst := step_seqPattern [(1, 'd', d), (2, 'h', h), (3, 'm', m), (4, 's', s)]
    (by
      intro p hp
      simp only [List.mem_cons, List.mem_singleton, List.not_mem_nil, or_false] at hp
      rcases hp with rfl | rfl | rfl | rfl
      · exact ⟨isDigit_d, vd⟩
      · exact ⟨isDigit_h, vh⟩
      · exact ⟨isDigit_m, vm⟩
      · exact ⟨isDigit_s, vs⟩)
    (by simp) 0 []
  have et : seqText [(1, 'd', d), (2, 'h', h), (3, 'm', m), (4, 's', s)] =
      durationText d h m s := by
    simp [seqText, durationText]
  rw [et] at hst
  have ep : durationPattern = .cat .beginText (seqPattern
      (([(1, 'd', d), (2, 'h', h), (3, 'm', m), (4, 's', s)] :
        List (Nat × Char × Option (List Char))).map (fun p => (p.1, p.2.1)))) := rfl
  rw [ep, step_cat, step_beginText]
  simp only [if_true, List.flatMap_cons, List.flatMap_nil, List.append_nil, hst, Nat.zero_add]

/-- The groups of the anchored match on a text of the grammar. -/
theorem groupOf_durationText (d h m s : Option (List Char))
    (vd : ValidPart d) (vh : ValidPart h) (vm : ValidPart m) (vs : ValidPart s) :
    groupOf durationPattern (durationText d h m s) 1 = d.map (fun ds => ds ++ ['d']) ∧
    groupOf durationPattern (durationText d h m s) 2 = h.map (fun ds => ds ++ ['h']) ∧
    groupOf durationPattern (durationText d h m s) 3 = m.map (fun ds => ds ++ ['m']) ∧
    groupOf durationPattern (durationText d h m s) 4 = s.map (fun ds => ds ++ ['s']) := by
  unfold groupOf
  rw [findAt_durationPattern d h m s vd vh vm vs]
  cases d <;> cases h <;> cases m <;> cases s <;> simp [seqCaps, List.lookup]

theorem searchAgrees_of (text : List Char) (i : Nat) (u : Char) (o : Option (List Char))
    (ho : ValidPart o)
    (hg : groupOf durationPattern text i = o.map (fun ds => ds ++ [u]))
    (hf : FindStringSubmatch (unitPattern u) text = submatchOf u o) :
    SearchAgrees text i u := by
  unfold SearchAgrees
  rw [hg, hf]
  cases o with
  | none => rfl
  | some ds => exact ⟨ds, ho, rfl, rfl⟩

/-- C15: on every text the anchored pattern accepts, each of the four unanchored
leftmost searches (\d+)d, (\d+)h, (\d+)m, (\d+)s finds a match exactly when the
optional group of its unit took part in the anchored match, and then it captures
the whole digit run of that group. -/
theorem searches_agree_with_groups (text : List Char)
    (hm : MatchString durationPattern text = true) :
    SearchAgrees text 1 'd' ∧ SearchAgrees text 2 'h' ∧ SearchAgrees text 3 'm' ∧
      SearchAgrees text 4 's' := by
  obtain ⟨d, h, m, s, vd, vh, vm, vs, rfl⟩ := (matchString_durationPattern text).mp hm
  obtain ⟨g1, g2, g3, g4⟩ := groupOf_durationText d h m s vd vh vm vs
  obtain ⟨f1, f2, f3, f4⟩ := findStringSubmatch_durationText d h m s vd vh vm vs
  exact ⟨searchAgrees_of _ 1 'd' d vd g1 f1, searchAgrees_of _ 2 'h' h vh g2 f2,
    searchAgrees_of _ 3 'm' m vm g3 f3, searchAgrees_of _ 4 's' s vs g4 f4⟩

theorem searches_agree_with_groups_witness :
    SearchAgrees ['1', '2', 'd', '5', 'm'] 1 'd' ∧ SearchAgrees ['1', '2', 'd', '5', 'm'] 2 'h' ∧
      SearchAgrees ['1', '2', 'd', '5', 'm'] 3 'm' ∧ SearchAgrees ['1', '2', 'd', '5', 'm'] 4 's' :=
  searches_agree_with_groups ['1', '2', 'd', '5', 'm'] (by decide)

end TimeUnits
